import Mathlib

/-!
Verification of the ledger-and-persistence core of the repository
(`src/blockchain/advanced_blockchain`): Merkle engine, transaction pool,
block/chain state machine, storage manager and distributed storage wrapper,
as a shallow embedding in Lean 4.

Hash functions, signatures and serialization come from external services
(`CryptoUtils`, `json`); the embedding is parametric in them, mirroring the
fact that the repository consumes them as opaque leaves.
-/

namespace BCSec

/-! ## Merkle engine (`src/utils/merkle.py`)

`MerkleTree` works on a list of already-serialized transaction strings and an
arbitrary string hash `h` (the code uses SHA-256 from `hashlib`).
-/

/-- One step of a Merkle path: the sibling hash plus the side of the sibling
relative to the current node (`"left"` or `"right"`, kept as strings exactly
as the Python dict stores them). -/
structure PathStep where
  hash : String
  position : String
deriving Repr, DecidableEq

/-- Odd-level padding inside `MerkleTree._build_tree`: if the level has odd
length the last node is duplicated (`current_level.append(current_level[-1])`). -/
def padOdd (l : List String) : List String :=
  if l.length % 2 = 1 then
    match l.getLast? with
    | some x => l ++ [x]
    | none => l
  else l

/-- The pairing loop of `_build_tree`: combine consecutive pairs
`parent = h(left ++ right)`. Called only on even-length (padded) levels;
the singleton case is unreachable there. -/
def pairAll (h : String → String) : List String → List String
  | a :: b :: rest => h (a ++ b) :: pairAll h rest
  | _ => []

/-- One iteration of the `while len(current_level) > 1` loop of `_build_tree`:
pad to even length and hash consecutive pairs. -/
def nextLevel (h : String → String) (l : List String) : List String :=
  pairAll h (padOdd l)

theorem padOdd_length (l : List String) :
    (padOdd l).length = l.length ∨ (padOdd l).length = l.length + 1 := by
  unfold padOdd
  split
  · match l.getLast? with
    | some x => simp
    | none => simp
  · left; rfl

theorem padOdd_getElem?_of_lt (l : List String) (k : Nat) (hk : k < l.length) :
    (padOdd l)[k]? = l[k]? := by
  unfold padOdd
  split
  · match l.getLast? with
    | some x => exact List.getElem?_append_left hk
    | none => rfl
  · rfl

theorem pairAll_length (h : String → String) :
    ∀ l : List String, (pairAll h l).length = l.length / 2
  | [] => by simp [pairAll]
  | [_] => by simp [pairAll]
  | _ :: _ :: rest => by
    simp only [pairAll, List.length_cons, pairAll_length h rest]
    omega

theorem nextLevel_length_lt (h : String → String) (l : List String)
    (hl : 2 ≤ l.length) : (nextLevel h l).length < l.length := by
  unfold nextLevel
  rw [pairAll_length]
  rcases padOdd_length l with h1 | h1 <;> rw [h1] <;> omega

/-- The accumulation of `tree_levels` in `_build_tree`: the current level is
recorded, then the loop continues while more than one node remains. -/
def buildLevels (h : String → String) (l : List String) : List (List String) :=
  if hl : 2 ≤ l.length then
    l :: buildLevels h (nextLevel h l)
  else
    [l]
termination_by l.length
decreasing_by exact nextLevel_length_lt h l hl

/-- `MerkleTree._build_tree`: leaves are `h(tx)` for each serialized
transaction; returns the recorded levels (empty input records nothing). -/
def buildTree (h : String → String) (transactions : List String) :
    List (List String) :=
  match transactions with
  | [] => []
  | _ => buildLevels h (transactions.map h)

/-- `MerkleTree.root`: the single hash remaining after the build, `none` for
an empty transaction list. -/
def merkleRoot (h : String → String) (transactions : List String) :
    Option String :=
  ((buildTree h transactions).getLast?).bind (·.head?)

/-- The loop of `get_merkle_path` over `range(len(tree_levels) - 1)`: at each
level but the last, record the sibling (skipped when its index is out of
range) and halve the index. -/
def pathLoop : List (List String) → Nat → List PathStep
  | [], _ => []
  | [_], _ => []
  | level :: rest, index =>
    let sibling_index := if index % 2 = 0 then index + 1 else index - 1
    let position := if index % 2 = 0 then "right" else "left"
    let step :=
      match level[sibling_index]? with
      | some s => [PathStep.mk s position]
      | none => []
    step ++ pathLoop rest (index / 2)

/-- `MerkleTree.get_merkle_path(transaction_index)`: empty for an
out-of-range index, otherwise the recorded sibling path. -/
def get_merkle_path (h : String → String) (transactions : List String)
    (transaction_index : Nat) : List PathStep :=
  if transactions.length ≤ transaction_index then []
  else pathLoop (buildTree h transactions) transaction_index

/-- The fold inside `verify_transaction`: recombine `current_hash` with each
recorded sibling on the recorded side. -/
def verifyFold (h : String → String) (start : String)
    (path : List PathStep) : String :=
  path.foldl
    (fun current step =>
      if step.position = "right" then h (current ++ step.hash)
      else h (step.hash ++ current))
    start

/-- `MerkleTree.verify_transaction(transaction, transaction_index, merkle_path)`:
fails closed on an empty path, otherwise recomputes the root along the path
and compares with the stored root (the index argument is unused by the code). -/
def verify_transaction (h : String → String) (transactions : List String)
    (transaction : String) (transaction_index : Nat)
    (merkle_path : List PathStep) : Bool :=
  let _ := transaction_index
  match merkle_path with
  | [] => false
  | _ =>
    match merkleRoot h transactions with
    | some r => verifyFold h (h transaction) merkle_path = r
    | none => false

/-- Completeness of a recorded path: at every level but the last the sibling
index is in range, so no step was skipped. This is exactly the condition
under which `get_merkle_path` loses no information. -/
def pathComplete : List (List String) → Nat → Bool
  | [], _ => true
  | [_], _ => true
  | level :: rest, index =>
    let sibling_index := if index % 2 = 0 then index + 1 else index - 1
    decide (sibling_index < level.length) && pathComplete rest (index / 2)

theorem buildLevels_eq (h : String → String) (l : List String) :
    buildLevels h l =
      if 2 ≤ l.length then l :: buildLevels h (nextLevel h l) else [l] := by
  rw [buildLevels]
  split <;> rfl

theorem buildLevels_ne_nil (h : String → String) (l : List String) :
    buildLevels h l ≠ [] := by
  rw [buildLevels_eq]
  split <;> simp

theorem pairAll_getElem? (h : String → String) :
    ∀ (l : List String) (j : Nat),
      (pairAll h l)[j]? =
        (l[2 * j]?).bind fun a => (l[2 * j + 1]?).map fun b => h (a ++ b)
  | [], j => by simp [pairAll]
  | [a], j => by cases j <;> simp [pairAll]
  | a :: b :: rest, 0 => by simp [pairAll]
  | a :: b :: rest, j + 1 => by
    have h2 : 2 * (j + 1) = 2 * j + 1 + 1 := by ring
    simp only [pairAll, h2, List.getElem?_cons_succ]
    exact pairAll_getElem? h rest j

/-- Walking one recorded step of the path from a node at position `i` of a
level lands on the parent node at position `i / 2` of the next level. -/
theorem nextLevel_getElem_parent (h : String → String) (l : List String)
    (i : Nat) (hi : i < l.length)
    (hsib : (if i % 2 = 0 then i + 1 else i - 1) < l.length) :
    (nextLevel h l)[i / 2]? =
      some (if i % 2 = 0
        then h (l[i]?.getD "" ++ l[i + 1]?.getD "")
        else h (l[i - 1]?.getD "" ++ l[i]?.getD "")) := by
  unfold nextLevel
  rw [pairAll_getElem?]
  by_cases hpar : i % 2 = 0
  · have h1 : 2 * (i / 2) = i := by omega
    rw [h1]
    simp only [if_pos hpar] at hsib ⊢
    rw [padOdd_getElem?_of_lt l i hi, padOdd_getElem?_of_lt l (i + 1) hsib]
    have hA : l[i]? = some (l.get ⟨i, hi⟩) := List.getElem?_eq_some_iff.2 ⟨hi, rfl⟩
    have hB : l[i + 1]? = some (l.get ⟨i + 1, hsib⟩) :=
      List.getElem?_eq_some_iff.2 ⟨hsib, rfl⟩
    rw [hA, hB]
    simp
  · have h1 : 2 * (i / 2) = i - 1 := by omega
    have h3 : i - 1 + 1 = i := by omega
    rw [h1, h3]
    simp only [if_neg hpar] at hsib ⊢
    rw [padOdd_getElem?_of_lt l (i - 1) hsib, padOdd_getElem?_of_lt l i hi]
    have hA : l[i - 1]? = some (l.get ⟨i - 1, hsib⟩) :=
      List.getElem?_eq_some_iff.2 ⟨hsib, rfl⟩
    have hB : l[i]? = some (l.get ⟨i, hi⟩) := List.getElem?_eq_some_iff.2 ⟨hi, rfl⟩
    rw [hA, hB]
    simp

theorem verifyFold_append (h : String → String) (start : String)
    (p q : List PathStep) :
    verifyFold h start (p ++ q) = verifyFold h (verifyFold h start p) q := by
  unfold verifyFold
  exact List.foldl_append ..

/-- Root recovery along a complete path, stated over the level structure of
`_build_tree`: folding the recorded siblings from the leaf reaches the root. -/
theorem buildLevels_fold (h : String → String) (l : List String) (i : Nat)
    (x : String) (hx : l[i]? = some x)
    (hc : pathComplete (buildLevels h l) i = true) :
    ((buildLevels h l).getLast?.bind (·.head?)) =
      some (verifyFold h x (pathLoop (buildLevels h l) i)) := by
  have hi : i < l.length := (List.getElem?_eq_some_iff.1 hx).1
  by_cases h2 : 2 ≤ l.length
  · obtain ⟨r, rs, hr⟩ : ∃ r rs, buildLevels h (nextLevel h l) = r :: rs := by
      cases hcase : buildLevels h (nextLevel h l) with
      | nil => exact absurd hcase (buildLevels_ne_nil h _)
      | cons r rs => exact ⟨r, rs, rfl⟩
    rw [buildLevels_eq, if_pos h2, hr] at hc ⊢
    by_cases hpar : i % 2 = 0
    · have hc' : i + 1 < l.length ∧ pathComplete (r :: rs) (i / 2) = true := by
        simpa [pathComplete, hpar] using hc
      have hB : l[i + 1]? = some (l.get ⟨i + 1, hc'.1⟩) :=
        List.getElem?_eq_some_iff.2 ⟨hc'.1, rfl⟩
      have hy : (nextLevel h l)[i / 2]? = some (h (x ++ l.get ⟨i + 1, hc'.1⟩)) := by
        have := nextLevel_getElem_parent h l i hi (by simpa [hpar] using hc'.1)
        simpa [hpar, hx, hB] using this
      have hrec := buildLevels_fold h (nextLevel h l) (i / 2) _ hy
        (by rw [hr]; exact hc'.2)
      rw [hr] at hrec
      have hstep : pathLoop (l :: r :: rs) i =
          PathStep.mk (l.get ⟨i + 1, hc'.1⟩) "right" :: pathLoop (r :: rs) (i / 2) := by
        simp only [pathLoop, if_pos hpar, hB]
        rfl
      rw [hstep, List.getLast?_cons_cons] at *
      rw [hrec]
      simp [verifyFold]
    · have hc' : i - 1 < l.length ∧ pathComplete (r :: rs) (i / 2) = true := by
        simpa [pathComplete, hpar] using hc
      have hB : l[i - 1]? = some (l.get ⟨i - 1, hc'.1⟩) :=
        List.getElem?_eq_some_iff.2 ⟨hc'.1, rfl⟩
      have hy : (nextLevel h l)[i / 2]? = some (h (l.get ⟨i - 1, hc'.1⟩ ++ x)) := by
        have := nextLevel_getElem_parent h l i hi (by simpa [hpar] using hc'.1)
        simpa [hpar, hx, hB] using this
      have hrec := buildLevels_fold h (nextLevel h l) (i / 2) _ hy
        (by rw [hr]; exact hc'.2)
      rw [hr] at hrec
      have hstep : pathLoop (l :: r :: rs) i =
          PathStep.mk (l.get ⟨i - 1, hc'.1⟩) "left" :: pathLoop (r :: rs) (i / 2) := by
        simp only [pathLoop, if_neg hpar, hB]
        rfl
      rw [hstep, List.getLast?_cons_cons] at *
      rw [hrec]
      simp [verifyFold]
  · have hl1 : l.length = 1 := by omega
    obtain ⟨a, rfl⟩ := List.length_eq_one.1 hl1
    have hi0 : i = 0 := by omega
    subst hi0
    have hax : a = x := by simpa using hx
    subst hax
    rw [buildLevels_eq]
    simp [pathLoop, verifyFold]
termination_by l.length
decreasing_by all_goals exact nextLevel_length_lt h l h2

theorem merkleRoot_of_fold (h : String → String) (T : List String) (i : Nat)
    (t : String) (ht : T[i]? = some t)
    (hc : pathComplete (buildTree h T) i = true) :
    merkleRoot h T =
      some (verifyFold h (h t) (pathLoop (buildTree h T) i)) := by
  have hi : i < T.length := (List.getElem?_eq_some_iff.1 ht).1
  have hT : T ≠ [] := by
    intro hnil
    rw [hnil] at hi
    simp at hi
  have hbt : buildTree h T = buildLevels h (T.map h) := by
    unfold buildTree
    cases T with
    | nil => exact absurd rfl hT
    | cons a as => rfl
  have hmap : (T.map h)[i]? = some (h t) := by
    rw [List.getElem?_map, ht]
    rfl
  unfold merkleRoot
  rw [hbt] at hc ⊢
  exact buildLevels_fold h (T.map h) i (h t) hmap hc

/-- A sample hash function used for concrete counterexamples: injective on its
input and evaluable by `simp`/`decide`. -/
def sampleHash (s : String) : String := "H(" ++ s ++ ")"

/-- For a tree with at least two leaves and a complete path, the recorded
path is nonempty (the leaf level always contributes a step). -/
theorem merkle_path_nonempty (h : String → String) (T : List String) (i : Nat)
    (hT : 2 ≤ T.length) (hi : i < T.length)
    (hc : pathComplete (buildTree h T) i = true) :
    get_merkle_path h T i ≠ [] := by
  have hbt : buildTree h T = buildLevels h (T.map h) := by
    unfold buildTree
    cases T with
    | nil => simp at hT
    | cons a as => rfl
  have hlen : 2 ≤ (T.map h).length := by simpa using hT
  obtain ⟨r, rs, hr⟩ : ∃ r rs, buildLevels h (nextLevel h (T.map h)) = r :: rs := by
    cases hcase : buildLevels h (nextLevel h (T.map h)) with
    | nil => exact absurd hcase (buildLevels_ne_nil h _)
    | cons r rs => exact ⟨r, rs, rfl⟩
  unfold get_merkle_path
  rw [if_neg (by omega), hbt, buildLevels_eq, if_pos hlen, hr]
  rw [hbt, buildLevels_eq, if_pos hlen, hr] at hc
  by_cases hpar : i % 2 = 0
  · have hc' : i + 1 < (T.map h).length := by
      have := (by simpa [pathComplete, hpar] using hc :
        i + 1 < (T.map h).length ∧ pathComplete (r :: rs) (i / 2) = true)
      exact this.1
    have hB : (T.map h)[i + 1]? = some ((T.map h).get ⟨i + 1, hc'⟩) :=
      List.getElem?_eq_some_iff.2 ⟨hc', rfl⟩
    simp [pathLoop, if_pos hpar, hB]
  · have hc' : i - 1 < (T.map h).length := by
      have := (by simpa [pathComplete, hpar] using hc :
        i - 1 < (T.map h).length ∧ pathComplete (r :: rs) (i / 2) = true)
      exact this.1
    have hB : (T.map h)[i - 1]? = some ((T.map h).get ⟨i - 1, hc'⟩) :=
      List.getElem?_eq_some_iff.2 ⟨hc', rfl⟩
    simp [pathLoop, if_neg hpar, hB]

/-! ## Transactions and the transaction pool (`src/core/transaction.py`)

Amounts and fees are Python floats used only through comparisons and
additions of small decimal values; they are modelled as rationals.
`CryptoUtils` (SHA-256, ECDSA, base58 addresses) and the float/JSON
renderings are opaque leaves; the embedding is parametric in them.
-/

/-- The slice of `CryptoUtils` consumed by transactions:
`hash_data`, `verify_signature`, `public_key_to_address`. -/
structure Crypto where
  hash_data : String → String
  verify_signature : String → String → String → Bool
  public_key_to_address : String → String

/-- A `Transaction` object after construction: all fields it carries,
including the content-derived identifier (never recomputed after creation). -/
structure Transaction where
  sender : String
  receiver : String
  amount : ℚ
  fee : ℚ
  data : String
  timestamp : ℚ
  nonce : String
  transaction_id : String
  signature : String
  public_key : String
deriving Repr, DecidableEq

/-- `Transaction.__init__`: store the fields, generate a fresh timestamp and
nonce (passed in here, they come from `time.time()` / `generate_nonce()`),
compute `transaction_id = hash(sender+receiver+amount+fee+data+timestamp+nonce)`
and leave signature/public key empty. `numStr` is Python's float rendering. -/
def Transaction.create (c : Crypto) (numStr : ℚ → String)
    (sender receiver : String) (amount fee : ℚ) (data : String)
    (timestamp : ℚ) (nonce : String) : Transaction :=
  { sender := sender
    receiver := receiver
    amount := amount
    fee := fee
    data := data
    timestamp := timestamp
    nonce := nonce
    transaction_id := c.hash_data
      (sender ++ receiver ++ numStr amount ++ numStr fee ++ data ++
        numStr timestamp ++ nonce)
    signature := ""
    public_key := "" }

/-- `Transaction.get_signing_data`. -/
def Transaction.get_signing_data (numStr : ℚ → String) (tx : Transaction) :
    String :=
  tx.sender ++ tx.receiver ++ numStr tx.amount ++ numStr tx.fee ++ tx.data ++
    tx.nonce

/-- `Transaction.is_valid`: positive amount, non-negative fee, non-empty
sender and receiver; when both signature and public key are present the
signature must verify and the derived address must equal the sender. -/
def Transaction.is_valid (c : Crypto) (numStr : ℚ → String)
    (tx : Transaction) : Bool :=
  if tx.amount ≤ 0 then false
  else if tx.fee < 0 then false
  else if tx.sender = "" ∨ tx.receiver = "" then false
  else if tx.signature ≠ "" ∧ tx.public_key ≠ "" then
    c.verify_signature (tx.get_signing_data numStr) tx.signature tx.public_key
      && decide (c.public_key_to_address tx.public_key = tx.sender)
  else true

/-- Lookup in a Python-dict model (association list, newest entry first). -/
def mapContains (m : List (String × Transaction)) (k : String) : Bool :=
  (m.lookup k).isSome

/-- `dict[k] = v`: replace any existing entry for `k`. -/
def mapInsert (k : String) (v : Transaction)
    (m : List (String × Transaction)) : List (String × Transaction) :=
  (k, v) :: m.filter (fun p => p.1 ≠ k)

/-- `del dict[k]`. -/
def mapErase (k : String) (m : List (String × Transaction)) :
    List (String × Transaction) :=
  m.filter (fun p => p.1 ≠ k)

/-- `TransactionPool` state: capacity, the fee-ordered pending list and the
id-keyed map. -/
structure TransactionPool where
  max_size : Nat
  pending_transactions : List Transaction
  transaction_map : List (String × Transaction)
deriving Repr, DecidableEq

/-- `TransactionPool.__init__(max_size)`. -/
def TransactionPool.init (max_size : Nat) : TransactionPool :=
  { max_size := max_size, pending_transactions := [], transaction_map := [] }

/-- Stable insertion into a fee-descending list: the new element goes after
every element with fee `≥` its own. -/
def insertFeeDesc (tx : Transaction) : List Transaction → List Transaction
  | [] => [tx]
  | t :: ts => if t.fee < tx.fee then tx :: t :: ts else t :: insertFeeDesc tx ts

/-- Model of `pending_transactions.sort(key=lambda tx: tx.fee, reverse=True)`:
CPython's sort is stable, so the result is the unique fee-descending ordering
that keeps ties in their pre-sort order — computed here by stable insertion
sort. -/
def sortFeeDesc (l : List Transaction) : List Transaction :=
  l.foldl (fun acc tx => insertFeeDesc tx acc) []

/-- `TransactionPool.remove_transaction(transaction_id)`: drop the map entry
and, if the mapped object is in the pending list, its first occurrence there. -/
def TransactionPool.remove_transaction (transaction_id : String)
    (p : TransactionPool) : Bool × TransactionPool :=
  match p.transaction_map.lookup transaction_id with
  | none => (false, p)
  | some tx =>
    let m := mapErase transaction_id p.transaction_map
    let pending :=
      if tx ∈ p.pending_transactions then p.pending_transactions.erase tx
      else p.pending_transactions
    (true, { p with pending_transactions := pending, transaction_map := m })

/-- The first transaction of lowest fee (`min(pending, key=lambda tx: tx.fee)`:
Python's `min` keeps the earliest minimum). -/
def lowestFeeFirst (t : Transaction) (ts : List Transaction) : Transaction :=
  ts.foldl (fun acc x => if x.fee < acc.fee then x else acc) t

/-- `TransactionPool._remove_lowest_fee_transaction`. -/
def TransactionPool.remove_lowest_fee (p : TransactionPool) :
    TransactionPool :=
  match p.pending_transactions with
  | [] => p
  | t :: ts => (p.remove_transaction (lowestFeeFirst t ts).transaction_id).2

/-- `TransactionPool.add_transaction(transaction)`: reject invalid or
duplicate transactions; evict the lowest-fee entry when at capacity; append
and re-sort fee-descending. -/
def TransactionPool.add_transaction (c : Crypto) (numStr : ℚ → String)
    (tx : Transaction) (p : TransactionPool) : Bool × TransactionPool :=
  if ¬ tx.is_valid c numStr then (false, p)
  else if mapContains p.transaction_map tx.transaction_id then (false, p)
  else
    let p1 :=
      if p.max_size ≤ p.pending_transactions.length then p.remove_lowest_fee
      else p
    (true,
      { p1 with
        pending_transactions :=
          sortFeeDesc (p1.pending_transactions ++ [tx])
        transaction_map :=
          mapInsert tx.transaction_id tx p1.transaction_map })

/-- `TransactionPool.get_transactions_for_block(max_count)`: remove and
return the highest-fee prefix. -/
def TransactionPool.get_transactions_for_block (max_count : Nat)
    (p : TransactionPool) : List Transaction × TransactionPool :=
  let selected := p.pending_transactions.take max_count
  let m := selected.foldl
    (fun m tx =>
      if mapContains m tx.transaction_id then mapErase tx.transaction_id m
      else m)
    p.transaction_map
  (selected,
    { p with
      pending_transactions := p.pending_transactions.drop max_count
      transaction_map := m })

/-- `TransactionPool.clear`. -/
def TransactionPool.clearPool (p : TransactionPool) : TransactionPool :=
  { p with pending_transactions := [], transaction_map := [] }

/-- One public operation on a pool, used to quantify over operation
sequences. -/
inductive PoolOp where
  | add (tx : Transaction)
  | select (max_count : Nat)
  | remove (transaction_id : String)
  | clear
deriving Repr

/-- Apply one pool operation (dropping the returned value). -/
def applyPoolOp (c : Crypto) (numStr : ℚ → String) (p : TransactionPool) :
    PoolOp → TransactionPool
  | .add tx => (p.add_transaction c numStr tx).2
  | .select n => (p.get_transactions_for_block n).2
  | .remove transaction_id => (p.remove_transaction transaction_id).2
  | .clear => p.clearPool

/-- Apply a sequence of pool operations. -/
def applyPoolOps (c : Crypto) (numStr : ℚ → String) (p : TransactionPool)
    (ops : List PoolOp) : TransactionPool :=
  ops.foldl (applyPoolOp c numStr) p

/-- The association pairs a pending list induces in `transaction_map`. -/
def pairsOf (l : List Transaction) : List (String × Transaction) :=
  l.map (fun tx => (tx.transaction_id, tx))

/-- The identifiers of a pending list. -/
def idsOf (l : List Transaction) : List String :=
  l.map (·.transaction_id)

/-- The invariant of `TransactionPool` for capacities of at least one:
bounded size, map in sync with the pending list, and distinct identifiers. -/
def PoolInv (p : TransactionPool) : Prop :=
  1 ≤ p.max_size ∧
  p.pending_transactions.length ≤ p.max_size ∧
  p.transaction_map.Perm (pairsOf p.pending_transactions) ∧
  (idsOf p.pending_transactions).Nodup

theorem pairsOf_map_fst (l : List Transaction) :
    (pairsOf l).map Prod.fst = idsOf l := by
  simp [pairsOf, idsOf]

theorem lookup_eq_none_iff (m : List (String × Transaction)) (k : String) :
    m.lookup k = none ↔ ∀ p ∈ m, p.1 ≠ k := by
  induction m with
  | nil => simp
  | cons a m ih =>
    rw [List.lookup_cons]
    by_cases hk : a.1 = k
    · simp [hk]
    · have : (k == a.1) = false := by
        simp [BEq.beq]
        exact fun he => hk he.symm
      simp [this, ih, hk]

theorem lookup_isSome_iff (m : List (String × Transaction)) (k : String) :
    (m.lookup k).isSome ↔ k ∈ m.map Prod.fst := by
  induction m with
  | nil => simp
  | cons a m ih =>
    rw [List.lookup_cons]
    by_cases hk : k = a.1
    · simp [hk]
    · have : (k == a.1) = false := by simp [BEq.beq, hk]
      simp [this, ih, hk]

theorem mem_of_lookup_eq_some {m : List (String × Transaction)} {k : String}
    {v : Transaction} (h : m.lookup k = some v) : (k, v) ∈ m := by
  induction m with
  | nil => simp at h
  | cons a m ih =>
    rw [List.lookup_cons] at h
    by_cases hk : k = a.1
    · have hb : (k == a.1) = true := by simp [BEq.beq, hk]
      rw [hb] at h
      simp only [if_true] at h
      have hv : a.2 = v := by injection h
      have hav : (k, v) = a := by
        cases a
        simp_all
      rw [hav]
      exact List.mem_cons_self a m
    · have hb : (k == a.1) = false := by simp [BEq.beq, hk]
      rw [hb] at h
      simp only [Bool.false_eq_true, if_false] at h
      exact List.mem_cons_of_mem a (ih h)

theorem lookup_eq_some_of_mem_nodup {m : List (String × Transaction)}
    {k : String} {v : Transaction} (hnd : (m.map Prod.fst).Nodup)
    (hm : (k, v) ∈ m) : m.lookup k = some v := by
  induction m with
  | nil => simp at hm
  | cons a m ih =>
    rw [List.lookup_cons]
    rcases List.mem_cons.1 hm with h | h
    · have hb : (k == a.1) = true := by
        cases h; simp [BEq.beq]
      rw [hb]
      cases h
      rfl
    · rw [List.map_cons] at hnd
      have hk : k ≠ a.1 := by
        intro he
        have hkm : k ∈ m.map Prod.fst := List.mem_map.2 ⟨(k, v), h, rfl⟩
        exact (List.nodup_cons.1 hnd).1 (he ▸ hkm)
      have hb : (k == a.1) = false := by simp [BEq.beq, hk]
      rw [hb]
      simp only [Bool.false_eq_true, if_false]
      exact ih (List.nodup_cons.1 hnd).2 h

theorem filter_key_eq_self {m : List (String × Transaction)} {k : String}
    (h : ∀ p ∈ m, p.1 ≠ k) :
    m.filter (fun p => p.1 ≠ k) = m :=
  List.filter_eq_self.2 (fun p hp => by simpa using h p hp)

theorem pairsOf_filter (l : List Transaction) (k : String) :
    (pairsOf l).filter (fun p => p.1 ≠ k) =
      pairsOf (l.filter (fun tx => tx.transaction_id ≠ k)) := by
  induction l with
  | nil => rfl
  | cons t l ih =>
    simp only [pairsOf, List.map_cons, List.filter_cons, ne_eq, decide_not]
      at ih ⊢
    by_cases ht : t.transaction_id = k
    · simp [ht, ih]
    · simp [ht, ih]

theorem erase_eq_filter_of_nodup {l : List Transaction} {tx : Transaction}
    (hnd : (idsOf l).Nodup) (hm : tx ∈ l) :
    l.erase tx = l.filter (fun t => t.transaction_id ≠ tx.transaction_id) := by
  induction l with
  | nil => simp at hm
  | cons a l ih =>
    have hnd' : (idsOf l).Nodup := (List.nodup_cons.1 hnd).2
    simp only [idsOf, List.map_cons] at hnd
    by_cases ha : a = tx
    · subst ha
      have hnotin : a.transaction_id ∉ l.map (·.transaction_id) :=
        (List.nodup_cons.1 hnd).1
      have hfilter : l.filter (fun t => t.transaction_id ≠ a.transaction_id) = l :=
        List.filter_eq_self.2 (fun t htl => by
          simp only [ne_eq, decide_not, Bool.not_eq_eq_eq_not, Bool.not_true,
            decide_eq_false_iff_not]
          intro he
          exact hnotin (List.mem_map.2 ⟨t, htl, he⟩))
      simp only [ne_eq, decide_not] at hfilter
      simp [List.erase_cons_head, List.filter_cons, hfilter]
    · have hm' : tx ∈ l := by
        rcases List.mem_cons.1 hm with h | h
        · exact absurd h.symm ha
        · exact h
      have hne : a.transaction_id ≠ tx.transaction_id := by
        intro he
        exact (List.nodup_cons.1 hnd).1
          (List.mem_map.2 ⟨tx, hm', he.symm⟩)
      rw [List.erase_cons_tail (by simp [ha]), List.filter_cons,
        if_pos (by simpa using hne), ih hnd' hm']

theorem lowestFeeFirst_mem (t : Transaction) (ts : List Transaction) :
    lowestFeeFirst t ts = t ∨ lowestFeeFirst t ts ∈ ts := by
  induction ts generalizing t with
  | nil => left; rfl
  | cons x ts ih =>
    unfold lowestFeeFirst
    rw [List.foldl_cons]
    rcases ih (if x.fee < t.fee then x else t) with h | h
    · unfold lowestFeeFirst at h
      rw [h]
      by_cases hx : x.fee < t.fee
      · right; simp [hx]
      · left; simp [hx]
    · right
      exact List.mem_cons_of_mem x h

theorem insertFeeDesc_perm (tx : Transaction) (l : List Transaction) :
    (insertFeeDesc tx l).Perm (tx :: l) := by
  induction l with
  | nil => exact List.Perm.refl _
  | cons t ts ih =>
    unfold insertFeeDesc
    by_cases h : t.fee < tx.fee
    · rw [if_pos h]
    · rw [if_neg h]
      exact (ih.cons t).trans (List.Perm.swap tx t ts)

theorem sortFeeDesc_perm (l : List Transaction) :
    (sortFeeDesc l).Perm l := by
  have key : ∀ (l acc : List Transaction),
      (l.foldl (fun acc tx => insertFeeDesc tx acc) acc).Perm (acc ++ l) := by
    intro l
    induction l with
    | nil => intro acc; simp
    | cons x l ih =>
      intro acc
      rw [List.foldl_cons]
      exact (ih _).trans
        (((insertFeeDesc_perm x acc).append_right l).trans
          List.perm_middle.symm)
  simpa using key l []

theorem remove_transaction_spec (p : TransactionPool) (k : String)
    (hperm : p.transaction_map.Perm (pairsOf p.pending_transactions))
    (hnd : (idsOf p.pending_transactions).Nodup) :
    (p.remove_transaction k).2.max_size = p.max_size ∧
    (p.remove_transaction k).2.transaction_map.Perm
      (pairsOf (p.remove_transaction k).2.pending_transactions) ∧
    (idsOf (p.remove_transaction k).2.pending_transactions).Sublist
      (idsOf p.pending_transactions) ∧
    (∀ tx, p.transaction_map.lookup k = some tx →
      (p.remove_transaction k).2.pending_transactions.length + 1 =
        p.pending_transactions.length) := by
  unfold TransactionPool.remove_transaction
  cases hl : p.transaction_map.lookup k with
  | none => exact ⟨rfl, hperm, List.Sublist.refl _, fun tx htx => by cases htx⟩
  | some tx =>
    have hpair : (k, tx) ∈ p.transaction_map := mem_of_lookup_eq_some hl
    have hpair' : (k, tx) ∈ pairsOf p.pending_transactions :=
      hperm.mem_iff.1 hpair
    obtain ⟨t, htmem, hteq⟩ := List.mem_map.1 hpair'
    have htt : t = tx := congrArg Prod.snd hteq
    subst htt
    have hid : t.transaction_id = k := congrArg Prod.fst hteq
    have htx : t ∈ p.pending_transactions := htmem
    have herase : p.pending_transactions.erase t =
        p.pending_transactions.filter (fun u => u.transaction_id ≠ k) := by
      rw [erase_eq_filter_of_nodup hnd htx, hid]
    refine ⟨rfl, ?_, ?_, ?_⟩
    · show (mapErase k p.transaction_map).Perm
        (pairsOf (if t ∈ p.pending_transactions then
          p.pending_transactions.erase t else p.pending_transactions))
      rw [if_pos htx, herase, ← pairsOf_filter]
      exact hperm.filter _
    · show (idsOf (if t ∈ p.pending_transactions then
        p.pending_transactions.erase t else p.pending_transactions)).Sublist
        (idsOf p.pending_transactions)
      rw [if_pos htx, herase]
      exact (List.filter_sublist _).map _
    · intro tx' htx'
      show (if t ∈ p.pending_transactions then
        p.pending_transactions.erase t else p.pending_transactions).length + 1 =
        p.pending_transactions.length
      rw [if_pos htx, List.length_erase_of_mem htx]
      have : 1 ≤ p.pending_transactions.length := List.length_pos.2 (by
        intro hnil; rw [hnil] at htx; cases htx)
      omega

theorem remove_lowest_fee_spec (p : TransactionPool)
    (hperm : p.transaction_map.Perm (pairsOf p.pending_transactions))
    (hnd : (idsOf p.pending_transactions).Nodup)
    (hne : p.pending_transactions ≠ []) :
    p.remove_lowest_fee.max_size = p.max_size ∧
    p.remove_lowest_fee.transaction_map.Perm
      (pairsOf p.remove_lowest_fee.pending_transactions) ∧
    (idsOf p.remove_lowest_fee.pending_transactions).Sublist
      (idsOf p.pending_transactions) ∧
    p.remove_lowest_fee.pending_transactions.length + 1 =
      p.pending_transactions.length := by
  obtain ⟨t, ts, hp⟩ : ∃ t ts, p.pending_transactions = t :: ts := by
    cases hcase : p.pending_transactions with
    | nil => exact absurd hcase hne
    | cons t ts => exact ⟨t, ts, rfl⟩
  have heq : p.remove_lowest_fee =
      (p.remove_transaction (lowestFeeFirst t ts).transaction_id).2 := by
    unfold TransactionPool.remove_lowest_fee
    rw [hp]
  have hmin : lowestFeeFirst t ts ∈ p.pending_transactions := by
    rw [hp]
    rcases lowestFeeFirst_mem t ts with h | h
    · rw [h]; exact List.mem_cons_self t ts
    · exact List.mem_cons_of_mem t h
  have hkeys : (p.transaction_map.map Prod.fst).Nodup := by
    have hkp := hperm.map Prod.fst
    rw [pairsOf_map_fst] at hkp
    exact (hkp.nodup_iff).2 hnd
  have hmem : ((lowestFeeFirst t ts).transaction_id, lowestFeeFirst t ts) ∈
      p.transaction_map :=
    hperm.mem_iff.2 (List.mem_map.2 ⟨lowestFeeFirst t ts, hmin, rfl⟩)
  have hlook : p.transaction_map.lookup
      (lowestFeeFirst t ts).transaction_id = some (lowestFeeFirst t ts) :=
    lookup_eq_some_of_mem_nodup hkeys hmem
  obtain ⟨h1, h2, h3, h4⟩ := remove_transaction_spec p
    (lowestFeeFirst t ts).transaction_id hperm hnd
  rw [heq]
  exact ⟨h1, h2, h3, h4 _ hlook⟩

theorem select_fold_perm :
    ∀ (sel rest : List Transaction) (m : List (String × Transaction)),
      m.Perm (pairsOf (sel ++ rest)) → (idsOf (sel ++ rest)).Nodup →
      (sel.foldl
        (fun m tx =>
          if mapContains m tx.transaction_id then mapErase tx.transaction_id m
          else m)
        m).Perm (pairsOf rest)
  | [], rest, m => by
    intro hperm _
    simpa using hperm
  | t :: sel, rest, m => by
    intro hperm hnd
    rw [List.foldl_cons]
    have hmem : (t.transaction_id, t) ∈ m :=
      hperm.mem_iff.2 (by simp [pairsOf])
    have hcont : mapContains m t.transaction_id = true := by
      unfold mapContains
      rw [lookup_isSome_iff]
      exact List.mem_map.2 ⟨(t.transaction_id, t), hmem, rfl⟩
    rw [if_pos hcont]
    have hnd' : (t.transaction_id ::
        (sel ++ rest).map (·.transaction_id)).Nodup := by
      simpa [idsOf] using hnd
    have hnotin : t.transaction_id ∉ (sel ++ rest).map (·.transaction_id) :=
      (List.nodup_cons.1 hnd').1
    have hndtail : ((sel ++ rest).map (·.transaction_id)).Nodup :=
      (List.nodup_cons.1 hnd').2
    have hfilter : (sel ++ rest).filter
        (fun u => u.transaction_id ≠ t.transaction_id) = sel ++ rest :=
      List.filter_eq_self.2 (fun u hu => by
        simp only [ne_eq, decide_not, Bool.not_eq_eq_eq_not, Bool.not_true,
          decide_eq_false_iff_not]
        intro he
        exact hnotin (List.mem_map.2 ⟨u, hu, he⟩))
    have hm' : (mapErase t.transaction_id m).Perm (pairsOf (sel ++ rest)) := by
      have step := hperm.filter (fun p => decide (p.1 ≠ t.transaction_id))
      rw [pairsOf_filter] at step
      have hcons : (t :: (sel ++ rest)).filter
          (fun u => u.transaction_id ≠ t.transaction_id) = sel ++ rest := by
        rw [List.filter_cons, if_neg (by simp), hfilter]
      unfold mapErase
      rw [show t :: sel ++ rest = t :: (sel ++ rest) from rfl, hcons] at step
      exact step
    exact select_fold_perm sel rest (mapErase t.transaction_id m) hm'
      (by simpa [idsOf] using hndtail)

theorem applyPoolOp_inv (c : Crypto) (numStr : ℚ → String)
    (p : TransactionPool) (op : PoolOp) (hInv : PoolInv p) :
    PoolInv (applyPoolOp c numStr p op) := by
  obtain ⟨hmax, hlen, hperm, hnd⟩ := hInv
  cases op with
  | add tx =>
    show PoolInv (p.add_transaction c numStr tx).2
    unfold TransactionPool.add_transaction
    by_cases hv : ¬ tx.is_valid c numStr = true
    · rw [if_pos hv]
      exact ⟨hmax, hlen, hperm, hnd⟩
    rw [if_neg hv]
    by_cases hdup : mapContains p.transaction_map tx.transaction_id = true
    · rw [if_pos hdup]
      exact ⟨hmax, hlen, hperm, hnd⟩
    rw [if_neg hdup]
    have hid_not : tx.transaction_id ∉ idsOf p.pending_transactions := by
      intro hidmem
      apply hdup
      unfold mapContains
      rw [lookup_isSome_iff]
      have hkp := hperm.map Prod.fst
      rw [pairsOf_map_fst] at hkp
      exact (hkp.mem_iff).2 hidmem
    obtain ⟨q, hq, hqmax, hqperm, hqnd, hqids, hqlen⟩ :
        ∃ q, (if p.max_size ≤ p.pending_transactions.length
            then p.remove_lowest_fee else p) = q ∧
          q.max_size = p.max_size ∧
          q.transaction_map.Perm (pairsOf q.pending_transactions) ∧
          (idsOf q.pending_transactions).Nodup ∧
          (idsOf q.pending_transactions).Sublist (idsOf p.pending_transactions) ∧
          q.pending_transactions.length + 1 ≤ p.max_size := by
      by_cases hcap : p.max_size ≤ p.pending_transactions.length
      · have hne : p.pending_transactions ≠ [] := by
          intro hnil
          rw [hnil] at hcap
          simp at hcap
          omega
        obtain ⟨e1, e2, e3, e4⟩ := remove_lowest_fee_spec p hperm hnd hne
        exact ⟨p.remove_lowest_fee, by rw [if_pos hcap], e1, e2,
          e3.nodup hnd, e3, by omega⟩
      · exact ⟨p, by rw [if_neg hcap], rfl, hperm, hnd, List.Sublist.refl _,
          by omega⟩
    rw [hq]
    have hid_not_q : tx.transaction_id ∉ idsOf q.pending_transactions :=
      fun hmem => hid_not (hqids.subset hmem)
    have hkeysq : ∀ pr ∈ q.transaction_map, pr.1 ≠ tx.transaction_id := by
      intro pr hpr he
      apply hid_not_q
      have hkp := hqperm.map Prod.fst
      rw [pairsOf_map_fst] at hkp
      exact hkp.mem_iff.1 (he ▸ List.mem_map.2 ⟨pr, hpr, rfl⟩)
    have hins : mapInsert tx.transaction_id tx q.transaction_map =
        (tx.transaction_id, tx) :: q.transaction_map := by
      unfold mapInsert
      rw [filter_key_eq_self hkeysq]
    have hsortp : (sortFeeDesc (q.pending_transactions ++ [tx])).Perm
        (q.pending_transactions ++ [tx]) := sortFeeDesc_perm _
    refine ⟨by rw [hqmax]; exact hmax, ?_, ?_, ?_⟩
    · show (sortFeeDesc (q.pending_transactions ++ [tx])).length ≤ q.max_size
      rw [hsortp.length_eq, hqmax]
      simpa using hqlen
    · show (mapInsert tx.transaction_id tx q.transaction_map).Perm
        (pairsOf (sortFeeDesc (q.pending_transactions ++ [tx])))
      rw [hins]
      have h1 : (pairsOf (sortFeeDesc (q.pending_transactions ++ [tx]))).Perm
          (pairsOf (q.pending_transactions ++ [tx])) := hsortp.map _
      have h2 : pairsOf (q.pending_transactions ++ [tx]) =
          pairsOf q.pending_transactions ++ [(tx.transaction_id, tx)] := by
        simp [pairsOf]
      have h3 : (pairsOf q.pending_transactions ++
          [(tx.transaction_id, tx)]).Perm
          ((tx.transaction_id, tx) :: pairsOf q.pending_transactions) :=
        List.perm_append_singleton _ _
      exact ((hqperm.cons _).trans
        ((h3.symm).trans (h2 ▸ h1.symm))).symm.symm
    · show (idsOf (sortFeeDesc (q.pending_transactions ++ [tx]))).Nodup
      have h1 : (idsOf (sortFeeDesc (q.pending_transactions ++ [tx]))).Perm
          (idsOf (q.pending_transactions ++ [tx])) := hsortp.map _
      rw [h1.nodup_iff]
      have h2 : idsOf (q.pending_transactions ++ [tx]) =
          idsOf q.pending_transactions ++ [tx.transaction_id] := by
        simp [idsOf]
      rw [h2, (List.perm_append_singleton _ _).nodup_iff, List.nodup_cons]
      exact ⟨hid_not_q, hqnd⟩
  | select n =>
    show PoolInv (p.get_transactions_for_block n).2
    unfold TransactionPool.get_transactions_for_block
    refine ⟨hmax, ?_, ?_, ?_⟩
    · show (p.pending_transactions.drop n).length ≤ p.max_size
      rw [List.length_drop]
      omega
    · show (((p.pending_transactions.take n).foldl _
        p.transaction_map)).Perm (pairsOf (p.pending_transactions.drop n))
      exact select_fold_perm (p.pending_transactions.take n)
        (p.pending_transactions.drop n) p.transaction_map
        (by rw [List.take_append_drop]; exact hperm)
        (by rw [List.take_append_drop]; exact hnd)
    · show (idsOf (p.pending_transactions.drop n)).Nodup
      exact ((List.drop_sublist n _).map _).nodup hnd
  | remove transaction_id =>
    show PoolInv (p.remove_transaction transaction_id).2
    obtain ⟨h1, h2, h3, _⟩ := remove_transaction_spec p transaction_id hperm hnd
    refine ⟨by rw [h1]; exact hmax, ?_, h2, h3.nodup hnd⟩
    have hle : (p.remove_transaction transaction_id).2.pending_transactions.length ≤
        p.pending_transactions.length := by
      have := h3.length_le
      simpa [idsOf] using this
    rw [h1]
    omega
  | clear =>
    exact ⟨hmax, by simp [applyPoolOp, TransactionPool.clearPool],
      by simp [applyPoolOp, TransactionPool.clearPool, pairsOf],
      by simp [applyPoolOp, TransactionPool.clearPool, idsOf]⟩

theorem applyPoolOps_inv (c : Crypto) (numStr : ℚ → String)
    (ops : List PoolOp) :
    ∀ (p : TransactionPool), PoolInv p →
      PoolInv (applyPoolOps c numStr p ops) := by
  induction ops with
  | nil => intro p h; exact h
  | cons op ops ih =>
    intro p h
    exact ih _ (applyPoolOp_inv c numStr p op h)

theorem PoolInv_init (m : Nat) (hm : 1 ≤ m) :
    PoolInv (TransactionPool.init m) := by
  refine ⟨hm, by simp [TransactionPool.init], ?_, ?_⟩
  · simp [TransactionPool.init, pairsOf]
  · simp [TransactionPool.init, idsOf]

/-- A concrete crypto service for witnesses: `sampleHash`, a signature check
that always rejects, and an empty address derivation (never consulted by the
scenarios, whose transactions are unsigned). -/
def sampleCrypto : Crypto :=
  ⟨sampleHash, fun _ _ _ => false, fun _ => ""⟩

/-- A concrete stand-in for Python's float rendering (never consulted by the
scenarios). -/
def sampleNumStr : ℚ → String := fun _ => ""

/-- A concrete valid unsigned transaction with a chosen identifier and fee. -/
def sampleTx (transaction_id : String) (fee : ℚ) : Transaction :=
  { sender := "alice", receiver := "bob", amount := 1, fee := fee, data := ""
    timestamp := 0, nonce := "", transaction_id := transaction_id
    signature := "", public_key := "" }

/-- The pool of capacity 3 after admitting fees 5, 1, 9, 3 in that order. -/
def c5Pool : TransactionPool :=
  (((((TransactionPool.init 3).add_transaction sampleCrypto sampleNumStr
    (sampleTx "t5" 5)).2.add_transaction sampleCrypto sampleNumStr
    (sampleTx "t1" 1)).2.add_transaction sampleCrypto sampleNumStr
    (sampleTx "t9" 9)).2.add_transaction sampleCrypto sampleNumStr
    (sampleTx "t3" 3)).2

/-- A sample operation sequence exercising every pool operation. -/
def samplePoolOps : List PoolOp :=
  [PoolOp.add (sampleTx "t5" 5), PoolOp.add (sampleTx "t1" 1),
    PoolOp.select 1, PoolOp.remove "t5", PoolOp.clear,
    PoolOp.add (sampleTx "t9" 9)]

/-- C2 (amended): for every hash function, every transaction list with at
least two entries and every in-range index whose recorded Merkle path is
complete (a sibling exists at every level, which holds in particular when the
leaf count is a power of two), the proof round-trip
`verify_transaction(T[i], i, get_merkle_path(i)) = true` succeeds. For a
single-element list the path is empty and verification fails closed, and an
index that relies on a duplicated padding node has an incomplete path and
fails, see the counterexample. -/
theorem C2_merkle_proof_roundtrip (h : String → String) (T : List String)
    (i : Nat) (t : String) (hT2 : 2 ≤ T.length) (ht : T[i]? = some t)
    (hc : pathComplete (buildTree h T) i = true) :
    verify_transaction h T t i (get_merkle_path h T i) = true := by
  have hi : i < T.length := (List.getElem?_eq_some_iff.1 ht).1
  have hroot := merkleRoot_of_fold h T i t ht hc
  have hne := merkle_path_nonempty h T i hT2 hi hc
  unfold get_merkle_path at hne ⊢
  rw [if_neg (by omega)] at hne ⊢
  cases hp : pathLoop (buildTree h T) i with
  | nil => exact absurd hp hne
  | cons s p =>
    rw [hp] at hroot
    unfold verify_transaction
    simp [hroot]

/-- C2 counterexample to the claim as stated: with a concrete hash function,
(a) for the one-element transaction list `["a"]` the recorded path is empty
and the round-trip returns `false`, and (b) for `["a","b","c"]` the trailing
leaf at index 2 is paired with a duplicated copy of itself during the build,
but `get_merkle_path` omits that duplicated sibling, so its round-trip
returns `false` as well. -/
theorem C2_merkle_proof_roundtrip_counterexample :
    verify_transaction sampleHash ["a"] "a" 0
        (get_merkle_path sampleHash ["a"] 0) = false ∧
    verify_transaction sampleHash ["a", "b", "c"] "c" 2
        (get_merkle_path sampleHash ["a", "b", "c"] 2) = false := by
  constructor <;>
    simp [verify_transaction, get_merkle_path, buildTree, buildLevels_eq,
      nextLevel, padOdd, pairAll, merkleRoot, pathLoop, verifyFold, sampleHash]

/-- Witness for C2: the amended round-trip theorem applied at the concrete
two-leaf tree over `["a","b"]` at index 0. -/
theorem C2_merkle_proof_roundtrip_witness :
    2 ≤ (["a", "b"] : List String).length ∧
    (["a", "b"] : List String)[0]? = some "a" ∧
    pathComplete (buildTree sampleHash ["a", "b"]) 0 = true ∧
    verify_transaction sampleHash ["a", "b"] "a" 0
      (get_merkle_path sampleHash ["a", "b"] 0) = true :=
  ⟨by simp, by simp, by simp [buildTree, buildLevels_eq, nextLevel, padOdd,
      pairAll, pathComplete],
    C2_merkle_proof_roundtrip sampleHash ["a", "b"] 0 "a" (by simp) (by simp)
      (by simp [buildTree, buildLevels_eq, nextLevel, padOdd, pairAll,
        pathComplete])⟩

/-! ## Blocks (`src/core/block.py`)

`time.time()` values and the JSON/float renderings produced by `json.dumps`
and Python's f-strings are opaque leaves, passed in as parameters. -/

/-- The serialization leaves a `Block` consumes: `tx.to_json()` and the
float rendering used in f-strings. -/
structure Serializer where
  txToJson : Transaction → String
  numStr : ℚ → String

/-- A `Block` object: all stored fields. -/
structure Block where
  index : Nat
  timestamp : ℚ
  transactions : List Transaction
  previous_hash : String
  miner_address : String
  merkle_root : String
  nonce : Nat
  difficulty : Nat
  hash : String
deriving Repr, DecidableEq

/-- The f-string of `Block._calculate_hash`:
`f"{index}{timestamp}{merkle_root}{previous_hash}{nonce}{miner_address}"`. -/
def blockHashString (ser : Serializer) (b : Block) : String :=
  toString b.index ++ ser.numStr b.timestamp ++ b.merkle_root ++
    b.previous_hash ++ toString b.nonce ++ b.miner_address

/-- `Block._calculate_hash`: SHA-256 of the field concatenation. -/
def Block.calcHash (c : Crypto) (ser : Serializer) (b : Block) : String :=
  c.hash_data (blockHashString ser b)

/-- `"0" * d`. -/
def zeroTarget (d : Nat) : String := String.mk (List.replicate d '0')

/-- Python's `str.startswith`, modelled as character-prefix comparison. -/
def pyStartsWith (s pre : String) : Bool := pre.data.isPrefixOf s.data

/-- `Block.__init__(index, transactions, previous_hash, miner_address)`:
build the Merkle tree over the serialized transactions
(`merkle_root = tree.root or ""`), set `nonce = 0`, `difficulty = 4`
(a fixed constructor default) and compute the initial hash. -/
def Block.create (c : Crypto) (ser : Serializer) (index : Nat)
    (transactions : List Transaction) (previous_hash : String)
    (miner_address : String) (timestamp : ℚ) : Block :=
  let b : Block :=
    { index := index
      timestamp := timestamp
      transactions := transactions
      previous_hash := previous_hash
      miner_address := miner_address
      merkle_root :=
        (merkleRoot c.hash_data (transactions.map ser.txToJson)).getD ""
      nonce := 0
      difficulty := 4
      hash := "" }
  { b with hash := b.calcHash c ser }

/-- `Block.is_valid`: the stored hash must equal the recomputed hash, satisfy
the proof-of-work target for the block's own `difficulty` field, every
transaction must be valid, and a fresh Merkle build must reproduce
`merkle_root` (`None` compares unequal to any string). -/
def Block.is_valid (c : Crypto) (ser : Serializer) (b : Block) : Bool :=
  if b.hash ≠ b.calcHash c ser then false
  else if ¬ (pyStartsWith b.hash (zeroTarget b.difficulty)) then false
  else if ¬ (b.transactions.all (·.is_valid c ser.numStr)) then false
  else
    match merkleRoot c.hash_data (b.transactions.map ser.txToJson) with
    | some r => decide (r = b.merkle_root)
    | none => false

/-- The `GenesisBlock` subclass: one genesis transaction of 1,000,000 coins
from `"genesis"`, previous hash of 64 zero characters, no mining. (The chain
initialization in `blockchain.py` does not use this class, see
`create_genesis_block` below.) -/
def GenesisBlock.create (c : Crypto) (ser : Serializer)
    (miner_address : String) (timestamp txTimestamp : ℚ) (txNonce : String) :
    Block :=
  let genesis_transaction := Transaction.create c ser.numStr "genesis"
    miner_address 1000000 0 "Genesis block transaction" txTimestamp txNonce
  let b := Block.create c ser 0 [genesis_transaction]
    (String.mk (List.replicate 64 '0')) miner_address timestamp
  { b with hash := b.calcHash c ser }

/-! ## Storage model (`src/storage/sqlite_storage.py` +
`src/storage/storage_manager.py`)

The embedded engine's tables (`blocks`, `block_height_index`,
`transaction_index`, `account_balances`, plus the metadata key) modelled as
association lists whose rows carry deserialized values: `Block.to_dict` /
`Block.from_dict` round-trip every stored field, so serialization is the
identity at this level. `INSERT OR REPLACE` on a PRIMARY KEY is `upsert`. -/

/-- `INSERT OR REPLACE` into a keyed table. -/
def upsert {α β : Type} [DecidableEq α] (k : α) (v : β) (m : List (α × β)) :
    List (α × β) :=
  (k, v) :: m.filter (fun p => p.1 ≠ k)

/-- The `blockchain:metadata` record written by `_save_to_storage`. -/
structure ChainMetadata where
  difficulty : Nat
  mining_reward : ℚ
  last_updated : ℚ
deriving Repr, DecidableEq

/-- One local storage engine state. -/
structure Storage where
  blocks : List (String × Block)
  height_index : List (Nat × String)
  tx_index : List (String × (String × Nat))
  balances : List (String × ℚ)
  metadata : Option ChainMetadata
deriving Repr, DecidableEq

/-- A freshly initialized storage instance (empty tables). -/
def emptyStorage : Storage := ⟨[], [], [], [], none⟩

/-- `StorageManager.store_block` (success path): store the block by hash,
the height→hash index entry, and per-transaction location index entries. -/
def storeBlock (b : Block) (s : Storage) : Storage :=
  { s with
    blocks := upsert b.hash b s.blocks
    height_index := upsert b.index b.hash s.height_index
    tx_index := b.transactions.enum.foldl
      (fun m p => upsert p.2.transaction_id (b.hash, p.1) m) s.tx_index }

/-- `StorageManager.get_block_by_hash`. -/
def getBlockByHash (s : Storage) (block_hash : String) : Option Block :=
  s.blocks.lookup block_hash

/-- `StorageManager.get_block_by_height`: height→hash index, then the block
record (negative heights have no rows). -/
def get_block_by_height (s : Storage) (height : Int) : Option Block :=
  if height < 0 then none
  else (s.height_index.lookup height.toNat).bind (getBlockByHash s)

/-- `SQLiteStorage.get_latest_block_height`: `MAX(height)`, `-1` on an empty
index. -/
def get_latest_block_height (s : Storage) : Int :=
  match s.height_index with
  | [] => -1
  | _ => Int.ofNat ((s.height_index.map Prod.fst).foldl max 0)

/-- `StorageManager.get_balance`: stored balance or `0.0`. -/
def get_balance (s : Storage) (address : String) : ℚ :=
  (s.balances.lookup address).getD 0

/-- `StorageManager.get_all_balances`: every stored account whose balance is
strictly positive (the `balance > 0` filter in the code); rows are unique per
address (PRIMARY KEY), so this is a filter of the balance table. -/
def get_all_balances (s : Storage) : List (String × ℚ) :=
  s.balances.filter (fun p => 0 < p.2)

/-- `StorageManager.store_balances`: `store_account_balance` per entry. -/
def store_balances (bals : List (String × ℚ)) (s : Storage) : Storage :=
  bals.foldl (fun s p => { s with balances := upsert p.1 p.2 s.balances }) s

/-- `StorageManager.store_blockchain_metadata`. -/
def store_blockchain_metadata (md : ChainMetadata) (s : Storage) : Storage :=
  { s with metadata := some md }

/-- `StorageManager.get_blockchain_metadata`: stored record or the defaults
`{difficulty: 4, mining_reward: 50.0, ...}`. -/
def get_blockchain_metadata (s : Storage) : ChainMetadata :=
  s.metadata.getD ⟨4, 50, 0⟩

/-- The content of the export file written by
`StorageManager.export_blockchain_data`. -/
structure ExportData where
  metadata : ChainMetadata
  blocks : List Block
  balances : List (String × ℚ)
deriving Repr, DecidableEq

/-- `StorageManager.export_blockchain_data`: metadata, every block found at
heights `0..latest`, and the positive balances. -/
def export_blockchain_data (s : Storage) : ExportData :=
  { metadata := get_blockchain_metadata s
    blocks := (List.range (get_latest_block_height s + 1).toNat).filterMap
      (fun h => get_block_by_height s (Int.ofNat h))
    balances := get_all_balances s }

/-- `StorageManager.import_blockchain_data`: store the metadata, replay
`store_block` for every block, then store the balances. -/
def import_blockchain_data (d : ExportData) (s : Storage) : Storage :=
  let s1 := store_blockchain_metadata d.metadata s
  let s2 := d.blocks.foldl (fun s b => storeBlock b s) s1
  store_balances d.balances s2

/-- Schema/reachability invariant of a storage state: unique balance rows
(PRIMARY KEY on `address`) and a consistent height index — every indexed
height resolves to a block whose own `index` field is that height (which is
what `store_block` always writes). -/
def StorageWF (s : Storage) : Prop :=
  (s.balances.map Prod.fst).Nodup ∧
  (∀ h hsh, (h, hsh) ∈ s.height_index →
    ∀ b, s.blocks.lookup hsh = some b → b.index = h)

/-! ## Chain-level operations (`src/core/blockchain.py`) -/

/-- `Blockchain._create_genesis_block`: a `Block` with index 0, no
transactions and `previous_hash="0"` (one character); nonce set to 0 and the
hash recomputed, then stored — no proof-of-work is performed or checked. -/
def create_genesis_block (c : Crypto) (ser : Serializer) (timestamp : ℚ)
    (s : Storage) : Block × Storage :=
  let genesis_block := Block.create c ser 0 [] "0" "" timestamp
  let genesis_block := { genesis_block with nonce := 0 }
  let genesis_block :=
    { genesis_block with hash := genesis_block.calcHash c ser }
  (genesis_block, storeBlock genesis_block s)

/-- A Python runtime error surfaced inside a `try` block. -/
inductive PyError where
  | attributeError
deriving Repr, DecidableEq

/-- The call `current_block.calculate_hash()` in `is_chain_valid`: `Block`
defines only `_calculate_hash`, so the attribute lookup raises
`AttributeError`. -/
def blockCalculateHashAttr : Except PyError String :=
  Except.error PyError.attributeError

/-- The loop of `is_chain_valid` over heights `1..latest`: check block
presence, hash linkage, then the (faulty) hash recomputation. -/
def chainValidLoop (s : Storage) : List Nat → Except PyError Bool
  | [] => Except.ok true
  | height :: rest =>
    match get_block_by_height s (Int.ofNat height),
        get_block_by_height s (Int.ofNat height - 1) with
    | some current_block, some previous_block =>
      if current_block.previous_hash ≠ previous_block.hash then
        Except.ok false
      else
        match blockCalculateHashAttr with
        | Except.error e => Except.error e
        | Except.ok recomputed =>
          if current_block.hash ≠ recomputed then Except.ok false
          else chainValidLoop s rest
    | _, _ => Except.ok false

/-- `Blockchain.is_chain_valid`: run the loop under the `try`; any raised
exception is caught and reported as `False`. -/
def is_chain_valid (s : Storage) : Bool :=
  match chainValidLoop s (List.range' 1 (get_latest_block_height s).toNat) with
  | Except.ok b => b
  | Except.error _ => false

/-- A concrete serializer for witnesses and counterexamples. -/
def sampleSer : Serializer := ⟨fun _ => "", fun _ => ""⟩

/-- A crypto service whose hash is constantly `"x"`. -/
def xCrypto : Crypto := ⟨fun _ => "x", fun _ _ _ => false, fun _ => ""⟩

/-- Genesis of a concrete, correctly linked 3-block chain. -/
def c1Block0 : Block := Block.create sampleCrypto sampleSer 0 [] "0" "" 0

/-- Second block of the concrete chain, linked to the genesis hash. -/
def c1Block1 : Block :=
  Block.create sampleCrypto sampleSer 1 [] c1Block0.hash "" 0

/-- Third block of the concrete chain, linked to the second block's hash. -/
def c1Block2 : Block :=
  Block.create sampleCrypto sampleSer 2 [] c1Block1.hash "" 0

/-- The concrete 3-block chain stored: every `previous_hash` matches the
prior block's stored hash and every stored hash equals its recomputation. -/
def c1Storage : Storage :=
  storeBlock c1Block2 (storeBlock c1Block1 (storeBlock c1Block0 emptyStorage))

theorem glookup_isSome_iff {α β : Type} [BEq α] [LawfulBEq α]
    (m : List (α × β)) (k : α) :
    (m.lookup k).isSome ↔ k ∈ m.map Prod.fst := by
  induction m with
  | nil => simp
  | cons a m ih =>
    rw [List.lookup_cons]
    by_cases hk : k = a.1
    · simp [hk]
    · have hb : (k == a.1) = false := by simpa using hk
      simp [hb, ih, hk]

theorem glookup_mem {α β : Type} [BEq α] [LawfulBEq α]
    {m : List (α × β)} {k : α} {v : β} (h : m.lookup k = some v) :
    (k, v) ∈ m := by
  induction m with
  | nil => simp at h
  | cons a m ih =>
    rw [List.lookup_cons] at h
    by_cases hk : k = a.1
    · have hb : (k == a.1) = true := by simpa using hk
      rw [hb] at h
      simp only [if_true] at h
      have hv : a.2 = v := by injection h
      have hav : (k, v) = a := by
        cases a
        simp_all
      rw [hav]
      exact List.mem_cons_self a m
    · have hb : (k == a.1) = false := by simpa using hk
      rw [hb] at h
      simp only [Bool.false_eq_true, if_false] at h
      exact List.mem_cons_of_mem a (ih h)

theorem glookup_filter_ne {α β : Type} [BEq α] [LawfulBEq α] [DecidableEq α]
    (m : List (α × β)) (k k' : α) (h : k' ≠ k) :
    (m.filter (fun p => p.1 ≠ k)).lookup k' = m.lookup k' := by
  induction m with
  | nil => rfl
  | cons a m ih =>
    rw [List.filter_cons]
    by_cases ha : a.1 = k
    · rw [if_neg (by simpa using ha), ih, List.lookup_cons]
      have hb : (k' == a.1) = false := by
        simp only [beq_eq_false_iff_ne, ne_eq]
        rw [ha]
        exact h
      rw [hb]
    · rw [if_pos (by simpa using ha), List.lookup_cons, List.lookup_cons]
      cases hb : (k' == a.1) with
      | true => rfl
      | false =>
        simp only [Bool.false_eq_true, if_false]
        exact ih

theorem upsert_lookup_self {α β : Type} [BEq α] [LawfulBEq α] [DecidableEq α]
    (k : α) (v : β) (m : List (α × β)) :
    (upsert k v m).lookup k = some v := by
  unfold upsert
  rw [List.lookup_cons]
  simp

theorem upsert_lookup_ne {α β : Type} [BEq α] [LawfulBEq α] [DecidableEq α]
    (k k' : α) (v : β) (m : List (α × β)) (h : k' ≠ k) :
    (upsert k v m).lookup k' = m.lookup k' := by
  unfold upsert
  rw [List.lookup_cons]
  have hb : (k' == k) = false := by simpa using h
  rw [hb]
  simp only [Bool.false_eq_true, if_false]
  exact glookup_filter_ne m k k' h

theorem le_foldl_max (l : List Nat) (a : Nat) :
    (∀ x ∈ l, x ≤ l.foldl max a) ∧ a ≤ l.foldl max a := by
  induction l generalizing a with
  | nil => simp
  | cons b l ih =>
    rw [List.foldl_cons]
    obtain ⟨h1, h2⟩ := ih (max a b)
    refine ⟨?_, le_trans (le_max_left a b) h2⟩
    intro x hx
    rcases List.mem_cons.1 hx with h | h
    · exact le_trans (h ▸ le_max_right a b) h2
    · exact h1 x h

/-- Every indexed height is at most the reported latest height. -/
theorem height_le_latest (s : Storage) (h : Nat)
    (hmem : h ∈ s.height_index.map Prod.fst) :
    (h : Int) ≤ get_latest_block_height s := by
  unfold get_latest_block_height
  cases hcase : s.height_index with
  | nil => rw [hcase] at hmem; simp at hmem
  | cons a t =>
    have hle := (le_foldl_max (s.height_index.map Prod.fst) 0).1 h hmem
    rw [hcase] at hle
    show (h : Int) ≤ Int.ofNat (((a :: t) : List (Nat × String)).map
      Prod.fst |>.foldl max 0)
    exact Int.ofNat_le.2 hle

/-- The last block of a list whose `index` field is `h` (the survivor of the
`INSERT OR REPLACE` sequence a replay performs). -/
def lastBlockAt (E : List Block) (h : Nat) : Option Block :=
  E.foldl (fun acc b => if b.index = h then some b else acc) none

theorem lastBlockAt_acc (h : Nat) :
    ∀ (E : List Block) (acc : Option Block),
      E.foldl (fun acc b => if b.index = h then some b else acc) acc =
        match lastBlockAt E h with
        | some b => some b
        | none => acc
  | [], acc => by simp [lastBlockAt]
  | b :: E, acc => by
    rw [List.foldl_cons]
    unfold lastBlockAt
    rw [List.foldl_cons]
    rw [lastBlockAt_acc h E (if b.index = h then some b else acc),
      lastBlockAt_acc h E (if b.index = h then some b else none)]
    cases lastBlockAt E h with
    | some b' => rfl
    | none =>
      by_cases hb : b.index = h
      · rw [if_pos hb, if_pos hb]
      · rw [if_neg hb, if_neg hb]

theorem lastBlockAt_cons (b : Block) (E : List Block) (h : Nat) :
    lastBlockAt (b :: E) h =
      match lastBlockAt E h with
      | some b' => some b'
      | none => if b.index = h then some b else none := by
  unfold lastBlockAt
  rw [List.foldl_cons, lastBlockAt_acc h E]
  rfl

theorem lastBlockAt_mem {E : List Block} {h : Nat} {b : Block}
    (hb : lastBlockAt E h = some b) : b ∈ E ∧ b.index = h := by
  induction E with
  | nil => simp [lastBlockAt] at hb
  | cons x E ih =>
    rw [lastBlockAt_cons] at hb
    cases hE : lastBlockAt E h with
    | some b' =>
      rw [hE] at hb
      have hbb : b' = b := by injection hb
      subst hbb
      obtain ⟨h1, h2⟩ := ih hE
      exact ⟨List.mem_cons_of_mem x h1, h2⟩
    | none =>
      rw [hE] at hb
      by_cases hx : x.index = h
      · rw [if_pos hx] at hb
        have hxb : x = b := by injection hb
        subst hxb
        exact ⟨List.mem_cons_self x E, hx⟩
      · rw [if_neg hx] at hb
        cases hb

theorem lastBlockAt_isSome {E : List Block} {h : Nat} {b : Block}
    (hb : b ∈ E) (hi : b.index = h) : (lastBlockAt E h).isSome := by
  induction E with
  | nil => simp at hb
  | cons x E ih =>
    rw [lastBlockAt_cons]
    cases hE : lastBlockAt E h with
    | some b' => simp
    | none =>
      rcases List.mem_cons.1 hb with hx | hx
      · rw [← hx, if_pos hi]
        simp
      · have hsome := ih hx
        rw [hE] at hsome
        simp at hsome

theorem store_block_height_lookup (b : Block) (s : Storage) (h : Nat) :
    (storeBlock b s).height_index.lookup h =
      if b.index = h then some b.hash else s.height_index.lookup h := by
  show (upsert b.index b.hash s.height_index).lookup h = _
  by_cases hb : b.index = h
  · rw [if_pos hb, hb, upsert_lookup_self]
  · rw [if_neg hb, upsert_lookup_ne _ _ _ _ (fun he => hb he.symm)]

theorem store_block_blocks_lookup (b : Block) (s : Storage) (k : String) :
    (storeBlock b s).blocks.lookup k =
      if b.hash = k then some b else s.blocks.lookup k := by
  show (upsert b.hash b s.blocks).lookup k = _
  by_cases hb : b.hash = k
  · rw [if_pos hb, hb, upsert_lookup_self]
  · rw [if_neg hb, upsert_lookup_ne _ _ _ _ (fun he => hb he.symm)]

theorem fold_store_height_lookup (h : Nat) :
    ∀ (E : List Block) (s0 : Storage),
      ((E.foldl (fun s b => storeBlock b s) s0).height_index.lookup h) =
        match lastBlockAt E h with
        | some b => some b.hash
        | none => s0.height_index.lookup h
  | [], s0 => by simp [lastBlockAt]
  | b :: E, s0 => by
    rw [List.foldl_cons, fold_store_height_lookup h E (storeBlock b s0),
      lastBlockAt_cons]
    cases hE : lastBlockAt E h with
    | some b' => rfl
    | none =>
      rw [store_block_height_lookup]
      by_cases hb : b.index = h
      · rw [if_pos hb, if_pos hb]
      · rw [if_neg hb, if_neg hb]

theorem fold_store_blocks_isSome (k : String) :
    ∀ (E : List Block) (s0 : Storage),
      ((E.foldl (fun s b => storeBlock b s) s0).blocks.lookup k).isSome ↔
        (∃ b ∈ E, b.hash = k) ∨ ((s0.blocks.lookup k).isSome)
  | [], s0 => by simp
  | b :: E, s0 => by
    rw [List.foldl_cons, fold_store_blocks_isSome k E (storeBlock b s0)]
    constructor
    · rintro (⟨b', hb', hk⟩ | hs)
      · exact Or.inl ⟨b', List.mem_cons_of_mem b hb', hk⟩
      · rw [store_block_blocks_lookup] at hs
        by_cases hb : b.hash = k
        · exact Or.inl ⟨b, List.mem_cons_self b E, hb⟩
        · rw [if_neg hb] at hs
          exact Or.inr hs
    · rintro (⟨b', hb', hk⟩ | hs)
      · rcases List.mem_cons.1 hb' with h1 | h1
        · right
          rw [store_block_blocks_lookup, ← h1, if_pos hk]
          rfl
        · exact Or.inl ⟨b', h1, hk⟩
      · right
        rw [store_block_blocks_lookup]
        by_cases hb : b.hash = k
        · rw [if_pos hb]; rfl
        · rw [if_neg hb]; exact hs

theorem store_balances_tables (bals : List (String × ℚ)) :
    ∀ s : Storage,
      (store_balances bals s).blocks = s.blocks ∧
      (store_balances bals s).height_index = s.height_index := by
  induction bals with
  | nil => intro s; exact ⟨rfl, rfl⟩
  | cons p bals ih =>
    intro s
    show (store_balances bals _).blocks = _ ∧ _
    obtain ⟨h1, h2⟩ := ih { s with balances := upsert p.1 p.2 s.balances }
    exact ⟨h1, h2⟩

theorem glookup_eq_none_generic {α β : Type} [BEq α] [LawfulBEq α]
    {m : List (α × β)} {k : α} (h : ∀ p ∈ m, p.1 ≠ k) :
    m.lookup k = none := by
  induction m with
  | nil => rfl
  | cons a m ih =>
    rw [List.lookup_cons]
    have hb : (k == a.1) = false := by
      simp only [beq_eq_false_iff_ne, ne_eq]
      intro he
      exact h a (List.mem_cons_self a m) he.symm
    rw [hb]
    simp only [Bool.false_eq_true, if_false]
    exact ih (fun p hp => h p (List.mem_cons_of_mem a hp))

theorem store_balances_lookup (a : String) :
    ∀ (bals : List (String × ℚ)) (s0 : Storage),
      (bals.map Prod.fst).Nodup →
      (store_balances bals s0).balances.lookup a =
        (bals.lookup a).or (s0.balances.lookup a)
  | [], s0 => by
    intro _
    simp [store_balances]
  | (b, v) :: bals, s0 => by
    intro hnd
    rw [List.map_cons] at hnd
    have hnd' := (List.nodup_cons.1 hnd).2
    have hbnotin := (List.nodup_cons.1 hnd).1
    show (store_balances bals _).balances.lookup a = _
    rw [store_balances_lookup a bals _ hnd']
    by_cases hab : a = b
    · have hrest : bals.lookup a = none := by
        rw [glookup_eq_none_generic]
        intro p hp he
        exact hbnotin (hab ▸ he ▸ List.mem_map.2 ⟨p, hp, rfl⟩)
      have hhead : ((b, v) :: bals).lookup a = some v := by
        rw [List.lookup_cons]
        have hb : (a == b) = true := by simpa using hab
        rw [hb]
      rw [hrest, hhead]
      show (upsert b v s0.balances).lookup a = _
      rw [hab, upsert_lookup_self]
      rfl
    · have hhead : ((b, v) :: bals).lookup a = bals.lookup a := by
        rw [List.lookup_cons]
        have hb : (a == b) = false := by simpa using hab
        rw [hb]
      rw [hhead]
      show (bals.lookup a).or ((upsert b v s0.balances).lookup a) = _
      rw [upsert_lookup_ne _ _ _ _ hab]

theorem lookup_filter_pos (a : String) :
    ∀ l : List (String × ℚ), (l.map Prod.fst).Nodup →
      (l.filter (fun p => 0 < p.2)).lookup a =
        match l.lookup a with
        | some v => if 0 < v then some v else none
        | none => none
  | [] => by intro _; rfl
  | (b, v) :: l => by
    intro hnd
    rw [List.map_cons] at hnd
    have hnd' := (List.nodup_cons.1 hnd).2
    have hbnotin := (List.nodup_cons.1 hnd).1
    rw [List.filter_cons]
    by_cases hab : a = b
    · have hhead : ((b, v) :: l).lookup a = some v := by
        rw [List.lookup_cons]
        have hb : (a == b) = true := by simpa using hab
        rw [hb]
      have hmatch : (match List.lookup a ((b, v) :: l) with
          | some v => if 0 < v then some v else none
          | none => none) = if 0 < v then some v else none := by
        rw [hhead]
      rw [hmatch]
      by_cases hv : (0 : ℚ) < v
      · rw [if_pos (by simpa using hv), if_pos hv, List.lookup_cons]
        have hb : (a == b) = true := by simpa using hab
        rw [hb]
      · rw [if_neg (by simpa using hv), if_neg hv]
        rw [lookup_filter_pos a l hnd']
        have hl : l.lookup a = none := glookup_eq_none_generic
          (fun p hp he =>
            hbnotin (hab ▸ he ▸ List.mem_map.2 ⟨p, hp, rfl⟩))
        rw [hl]
    · have hhead : ((b, v) :: l).lookup a = l.lookup a := by
        rw [List.lookup_cons]
        have hb : (a == b) = false := by simpa using hab
        rw [hb]
      rw [hhead]
      by_cases hv : (0 : ℚ) < v
      · rw [if_pos (by simpa using hv), List.lookup_cons]
        have hb : (a == b) = false := by simpa using hab
        rw [hb]
        simp only [Bool.false_eq_true, if_false]
        exact lookup_filter_pos a l hnd'
      · rw [if_neg (by simpa using hv)]
        exact lookup_filter_pos a l hnd'

theorem fold_store_balances_eq :
    ∀ (E : List Block) (σ : Storage),
      (E.foldl (fun s b => storeBlock b s) σ).balances = σ.balances
  | [], σ => rfl
  | b :: E, σ => by
    rw [List.foldl_cons, fold_store_balances_eq E (storeBlock b σ)]
    rfl

theorem get_block_by_height_store_balances (bals : List (String × ℚ))
    (σ : Storage) (hI : Int) :
    get_block_by_height (store_balances bals σ) hI =
      get_block_by_height σ hI := by
  obtain ⟨h1, h2⟩ := store_balances_tables bals σ
  unfold get_block_by_height getBlockByHash
  rw [h1, h2]

theorem imported_present_iff (s : Storage) (n : Nat) :
    (get_block_by_height (import_blockchain_data (export_blockchain_data s)
      emptyStorage) (Int.ofNat n)).isSome = true ↔
    ∃ b ∈ (export_blockchain_data s).blocks, b.index = n := by
  show (get_block_by_height (store_balances _
    ((export_blockchain_data s).blocks.foldl (fun s b => storeBlock b s)
      (store_blockchain_metadata (export_blockchain_data s).metadata
        emptyStorage))) (Int.ofNat n)).isSome = true ↔ _
  rw [get_block_by_height_store_balances]
  unfold get_block_by_height
  rw [if_neg (show ¬ Int.ofNat n < 0 from Int.not_lt.2 (Int.ofNat_nonneg n))]
  have htn : (Int.ofNat n).toNat = n := rfl
  rw [htn, fold_store_height_lookup]
  cases hLB : lastBlockAt (export_blockchain_data s).blocks n with
  | none =>
    have hnone : (store_blockchain_metadata (export_blockchain_data s).metadata
        emptyStorage).height_index.lookup n = none := rfl
    rw [hnone]
    constructor
    · intro h
      exact Bool.noConfusion h
    · rintro ⟨b, hbE, hidx⟩
      have hs := lastBlockAt_isSome hbE hidx
      rw [hLB] at hs
      simp at hs
  | some b =>
    obtain ⟨hbE, hidx⟩ := lastBlockAt_mem hLB
    constructor
    · intro _
      exact ⟨b, hbE, hidx⟩
    · intro _
      show ((List.foldl (fun s b => storeBlock b s)
        (store_blockchain_metadata (export_blockchain_data s).metadata
          emptyStorage)
        (export_blockchain_data s).blocks).blocks.lookup b.hash).isSome = true
      rw [Option.isSome_iff_exists]
      have hiff := fold_store_blocks_isSome b.hash
        (export_blockchain_data s).blocks
        (store_blockchain_metadata (export_blockchain_data s).metadata
          emptyStorage)
      have hsome := hiff.2 (Or.inl ⟨b, hbE, rfl⟩)
      rw [Option.isSome_iff_exists] at hsome
      exact hsome

theorem original_present_iff (s : Storage) (hwf : StorageWF s) (n : Nat) :
    (get_block_by_height s (Int.ofNat n)).isSome = true ↔
    ∃ b ∈ (export_blockchain_data s).blocks, b.index = n := by
  constructor
  · intro hpres
    rw [Option.isSome_iff_exists] at hpres
    obtain ⟨bh, hbh⟩ := hpres
    have hbh' := hbh
    unfold get_block_by_height at hbh'
    rw [if_neg (show ¬ Int.ofNat n < 0 from Int.not_lt.2 (Int.ofNat_nonneg n))] at hbh'
    have htn : (Int.ofNat n).toNat = n := rfl
    rw [htn] at hbh'
    obtain ⟨hsh, hlk, hblk⟩ := Option.bind_eq_some.1 hbh'
    have hmem : (n, hsh) ∈ s.height_index := glookup_mem hlk
    have hkeys : n ∈ s.height_index.map Prod.fst :=
      List.mem_map.2 ⟨(n, hsh), hmem, rfl⟩
    have hle : (n : Int) ≤ get_latest_block_height s := height_le_latest s n hkeys
    have hidx : bh.index = n := hwf.2 n hsh hmem bh hblk
    refine ⟨bh, ?_, hidx⟩
    show bh ∈ (List.range (get_latest_block_height s + 1).toNat).filterMap
      (fun h => get_block_by_height s (Int.ofNat h))
    exact List.mem_filterMap.2 ⟨n, List.mem_range.2 (by omega), hbh⟩
  · rintro ⟨b, hbE, hidx⟩
    obtain ⟨h', _, hget⟩ := List.mem_filterMap.1 hbE
    have hidx' : b.index = h' := by
      have hget' := hget
      unfold get_block_by_height at hget'
      rw [if_neg (show ¬ Int.ofNat h' < 0 from Int.not_lt.2 (Int.ofNat_nonneg h'))] at hget'
      have htn : (Int.ofNat h').toNat = h' := rfl
      rw [htn] at hget'
      obtain ⟨hsh, hlk, hblk⟩ := Option.bind_eq_some.1 hget'
      exact hwf.2 h' hsh (glookup_mem hlk) b hblk
    have hn : h' = n := by omega
    rw [hn] at hget
    rw [Option.isSome_iff_exists]
    exact ⟨b, hget⟩

/-- The in-memory state of a `Blockchain` instance: configured difficulty
and reward, the pending list, the cached balances dict and the storage. -/
structure ChainState where
  difficulty : Nat
  mining_reward : ℚ
  pending_transactions : List Transaction
  balances : List (String × ℚ)
  storage : Storage
deriving Repr

/-- `Blockchain.get_latest_block`. -/
def Blockchain.get_latest_block (st : ChainState) : Option Block :=
  if 0 ≤ get_latest_block_height st.storage then
    get_block_by_height st.storage (get_latest_block_height st.storage)
  else none

/-- `Blockchain._update_balances_from_block`: per transaction, debit a
non-empty sender and credit the receiver (absent entries start at 0). -/
def update_balances_from_block (b : Block)
    (balances : List (String × ℚ)) : List (String × ℚ) :=
  b.transactions.foldl
    (fun bal tx =>
      let bal :=
        if tx.sender ≠ "" then
          upsert tx.sender ((bal.lookup tx.sender).getD 0 - tx.amount) bal
        else bal
      upsert tx.receiver ((bal.lookup tx.receiver).getD 0 + tx.amount) bal)
    balances

/-- `Blockchain._save_to_storage`: persist metadata and the balances dict. -/
def save_to_storage (now : ℚ) (st : ChainState) : Storage :=
  store_balances st.balances
    (store_blockchain_metadata ⟨st.difficulty, st.mining_reward, now⟩
      st.storage)

/-- The reward transaction synthesized by `mine_pending_transactions`:
`Transaction(sender="", receiver=mining_reward_address, amount=mining_reward)`
with the constructor defaults `fee=0.0`, `data=""`. -/
def reward_transaction_of (c : Crypto) (ser : Serializer) (st : ChainState)
    (mining_reward_address : String) (rewardTimestamp : ℚ)
    (rewardNonce : String) : Transaction :=
  Transaction.create c ser.numStr "" mining_reward_address st.mining_reward 0
    "" rewardTimestamp rewardNonce

/-- `previous_hash = latest_block.hash if latest_block else "0"`. -/
def previous_hash_of (st : ChainState) : String :=
  match Blockchain.get_latest_block st with
  | some b => b.hash
  | none => "0"

/-- `new_index = latest_block.index + 1 if latest_block else 0`. -/
def new_index_of (st : ChainState) : Nat :=
  match Blockchain.get_latest_block st with
  | some b => b.index + 1
  | none => 0

/-- The block `mine_pending_transactions` constructs before proof-of-work:
the snapshot of pending transactions plus the reward transaction. -/
def new_block_of (c : Crypto) (ser : Serializer) (blockTimestamp : ℚ)
    (st : ChainState) (mining_reward_address : String) (rewardTimestamp : ℚ)
    (rewardNonce : String) : Block :=
  Block.create c ser (new_index_of st)
    (st.pending_transactions ++
      [reward_transaction_of c ser st mining_reward_address rewardTimestamp
        rewardNonce])
    (previous_hash_of st) "" blockTimestamp

/-- Termination condition of the `_mine_block` nonce search: some nonce makes
the recomputed hash start with `"0" * difficulty` (the chain's configured
difficulty). With a real hash this holds with overwhelming probability; the
loop has no other exit. -/
def MiningSucceeds (c : Crypto) (ser : Serializer) (d : Nat) (b : Block) :
    Prop :=
  ∃ n : Nat,
    pyStartsWith (Block.calcHash c ser { b with nonce := n }) (zeroTarget d)
      = true

/-- `Blockchain._mine_block`: increment the nonce from its initial value 0
until the recomputed hash meets the target; the result carries the first
such nonce and its hash. The block's `difficulty` field is not touched. -/
def mine_block (c : Crypto) (ser : Serializer) (d : Nat) (b : Block)
    (hex : MiningSucceeds c ser d b) : Block :=
  let n := Nat.find hex
  { b with nonce := n, hash := Block.calcHash c ser { b with nonce := n } }

/-- `Blockchain.mine_pending_transactions(mining_reward_address)`: no-op on
an empty pool; otherwise build the block from the pending snapshot plus the
reward transaction, run proof-of-work at the chain's difficulty, and only if
`store_block` reports success (`storeOk`) update balances, clear the pool
and save state — a failed store leaves the in-memory state untouched and
returns `None`. -/
def mine_pending_transactions (c : Crypto) (ser : Serializer)
    (rewardTimestamp : ℚ) (rewardNonce : String) (blockTimestamp : ℚ)
    (saveTime : ℚ) (storeOk : Bool) (st : ChainState)
    (mining_reward_address : String)
    (hex : MiningSucceeds c ser st.difficulty
      (new_block_of c ser blockTimestamp st mining_reward_address
        rewardTimestamp rewardNonce)) :
    Option Block × ChainState :=
  if st.pending_transactions = [] then (none, st)
  else
    let mined := mine_block c ser st.difficulty
      (new_block_of c ser blockTimestamp st mining_reward_address
        rewardTimestamp rewardNonce) hex
    if storeOk then
      let st1 : ChainState :=
        { st with
          storage := storeBlock mined st.storage
          balances := update_balances_from_block mined st.balances
          pending_transactions := [] }
      (some mined, { st1 with storage := save_to_storage saveTime st1 })
    else (none, st)

/-- A crypto service whose hash is constantly `"0abc"`: mining at difficulty
1 succeeds immediately, but the hash satisfies no 4-zero target. -/
def crypto0abc : Crypto := ⟨fun _ => "0abc", fun _ _ _ => false, fun _ => ""⟩

/-- A concrete chain state: difficulty 1, one pending transaction, empty
storage. -/
def st9 : ChainState :=
  { difficulty := 1
    mining_reward := 50
    pending_transactions := [sampleTx "p" 1]
    balances := []
    storage := emptyStorage }

theorem mining_succeeds_st9 :
    MiningSucceeds crypto0abc sampleSer st9.difficulty
      (new_block_of crypto0abc sampleSer 0 st9 "miner" 0 "") :=
  ⟨0, by decide⟩

/-- The block mined from `st9` under the constant-hash crypto service. -/
def mined9 : Block :=
  mine_block crypto0abc sampleSer st9.difficulty
    (new_block_of crypto0abc sampleSer 0 st9 "miner" 0 "") mining_succeeds_st9

/-- A storage state holding a negative account balance (reachable: balance
updates subtract spent amounts without floors, and several pending spends
from one account are each validated against the same pre-mining balance). -/
def negStorage : Storage := { emptyStorage with balances := [("alice", -5)] }

/-- A small well-formed storage state: one stored genesis block and one
positive balance. -/
def c6WitnessStorage : Storage :=
  store_balances [("carol", 7)] (storeBlock c1Block0 emptyStorage)

/-- C6 (amended): for every well-formed storage state (unique balance rows
and a height index consistent with the stored blocks' own `index` fields,
as `store_block` maintains), exporting and importing into a fresh storage
preserves `get_balance` for every address whose original balance is
non-negative, and preserves exactly which heights have a block. Negative
balances are dropped by the `balance > 0` export filter and read back as 0,
see the counterexample. -/
theorem C6_export_import_roundtrip (s : Storage) (hwf : StorageWF s) :
    (∀ a : String, 0 ≤ get_balance s a →
      get_balance (import_blockchain_data (export_blockchain_data s)
        emptyStorage) a = get_balance s a) ∧
    (∀ hI : Int,
      (get_block_by_height (import_blockchain_data (export_blockchain_data s)
        emptyStorage) hI).isSome =
      (get_block_by_height s hI).isSome) := by
  constructor
  · intro a ha
    show ((store_balances (export_blockchain_data s).balances
      ((export_blockchain_data s).blocks.foldl (fun s b => storeBlock b s)
        (store_blockchain_metadata (export_blockchain_data s).metadata
          emptyStorage))).balances.lookup a).getD 0 = _
    have hnd : ((export_blockchain_data s).balances.map Prod.fst).Nodup := by
      show ((s.balances.filter (fun p => 0 < p.2)).map Prod.fst).Nodup
      exact ((List.filter_sublist _).map _).nodup hwf.1
    rw [store_balances_lookup a _ _ hnd]
    have hfoldbal : ((export_blockchain_data s).blocks.foldl
        (fun s b => storeBlock b s)
        (store_blockchain_metadata (export_blockchain_data s).metadata
          emptyStorage)).balances = [] := by
      rw [fold_store_balances_eq]
      rfl
    rw [hfoldbal]
    show (((s.balances.filter (fun p => 0 < p.2)).lookup a).or
      (([] : List (String × ℚ)).lookup a)).getD 0 = _
    rw [show (([] : List (String × ℚ)).lookup a) = none from rfl,
      Option.or_none, lookup_filter_pos a s.balances hwf.1]
    unfold get_balance at ha ⊢
    cases hv : s.balances.lookup a with
    | none => rfl
    | some v =>
      rw [hv] at ha
      show ((if 0 < v then some v else none)).getD 0 = (some v).getD 0
      by_cases hvpos : (0 : ℚ) < v
      · rw [if_pos hvpos]
      · rw [if_neg hvpos]
        have hv0 : v = 0 := le_antisymm (not_lt.1 hvpos) (by simpa using ha)
        rw [hv0]
        rfl
  · intro hI
    cases hI with
    | negSucc m =>
      show (get_block_by_height _ (Int.negSucc m)).isSome = _
      unfold get_block_by_height
      rw [if_pos (Int.negSucc_lt_zero m), if_pos (Int.negSucc_lt_zero m)]
    | ofNat n =>
      rw [Bool.eq_iff_iff]
      exact (imported_present_iff s n).trans
        (original_present_iff s hwf n).symm

/-- C6 counterexample to the claim as stated: a (reachable, well-formed)
storage state whose only balance is negative. The export filter
`balance > 0` drops it, so after import into a fresh storage the balance
reads 0 instead of -5. -/
theorem C6_export_import_roundtrip_counterexample :
    StorageWF negStorage ∧
    get_balance negStorage "alice" = -5 ∧
    get_balance (import_blockchain_data (export_blockchain_data negStorage)
      emptyStorage) "alice" = 0 := by
  refine ⟨⟨by decide, ?_⟩, by decide, by decide⟩
  intro h hsh hmem
  exact absurd hmem (List.not_mem_nil _)

/-- Witness for C6: the round trip evaluated on a concrete well-formed
storage with one block and one positive balance. -/
theorem C6_export_import_roundtrip_witness :
    StorageWF c6WitnessStorage ∧
    0 ≤ get_balance c6WitnessStorage "carol" ∧
    get_balance (import_blockchain_data (export_blockchain_data
      c6WitnessStorage) emptyStorage) "carol" =
      get_balance c6WitnessStorage "carol" ∧
    (get_block_by_height (import_blockchain_data (export_blockchain_data
      c6WitnessStorage) emptyStorage) 0).isSome =
      (get_block_by_height c6WitnessStorage 0).isSome := by
  have hwf : StorageWF c6WitnessStorage := by
    refine ⟨by decide, ?_⟩
    intro h hsh hmem b hb
    have hhi : c6WitnessStorage.height_index = [(0, c1Block0.hash)] := rfl
    rw [hhi] at hmem
    simp only [List.mem_singleton, Prod.mk.injEq] at hmem
    obtain ⟨rfl, rfl⟩ := hmem
    have hbl : c6WitnessStorage.blocks = [(c1Block0.hash, c1Block0)] := rfl
    rw [hbl, List.lookup_cons] at hb
    simp only [beq_self_eq_true, if_true, Option.some.injEq] at hb
    rw [← hb]
    rfl
  exact ⟨hwf, by decide,
    (C6_export_import_roundtrip c6WitnessStorage hwf).1 "carol" (by decide),
    (C6_export_import_roundtrip c6WitnessStorage hwf).2 0⟩

/-- C1 (code bug): `is_chain_valid` calls `current_block.calculate_hash()`,
a method `Block` does not define (only `_calculate_hash` exists), so for any
chain of height ≥ 1 the first loop iteration either fails an earlier check or
raises `AttributeError`, which the surrounding `try` turns into `False`. The
function therefore returns true exactly when the chain has height ≤ 0 —
in particular it returns `false` on a concrete, fully valid 3-block chain
(correct linkage and correct stored hashes), contradicting the claimed
validation semantics. -/
theorem C1_is_chain_valid_attribute_error :
    (∀ s : Storage, is_chain_valid s = decide (get_latest_block_height s ≤ 0)) ∧
    is_chain_valid c1Storage = false ∧
    get_latest_block_height c1Storage = 2 ∧
    c1Block1.previous_hash = c1Block0.hash ∧
    c1Block2.previous_hash = c1Block1.hash ∧
    c1Block0.hash = c1Block0.calcHash sampleCrypto sampleSer ∧
    c1Block1.hash = c1Block1.calcHash sampleCrypto sampleSer ∧
    c1Block2.hash = c1Block2.calcHash sampleCrypto sampleSer := by
  refine ⟨?_, by decide, by decide, by decide, by decide, by decide,
    by decide, by decide⟩
  intro s
  by_cases hle : get_latest_block_height s ≤ 0
  · have ht : (get_latest_block_height s).toNat = 0 := by omega
    rw [is_chain_valid, ht]
    simp [chainValidLoop, hle]
  · have ht : ∃ n, (get_latest_block_height s).toNat = n + 1 := by
      have : 1 ≤ (get_latest_block_height s).toNat := by omega
      exact ⟨(get_latest_block_height s).toNat - 1, by omega⟩
    obtain ⟨n, hn⟩ := ht
    rw [is_chain_valid, hn]
    have hrange : List.range' 1 (n + 1) = 1 :: List.range' 2 n := rfl
    rw [hrange]
    rw [decide_eq_false hle]
    cases hcb : get_block_by_height s (1 : Int) with
    | none => simp [chainValidLoop, hcb]
    | some current_block =>
      cases hpb : get_block_by_height s (0 : Int) with
      | none => simp [chainValidLoop, hcb, hpb]
      | some previous_block =>
        by_cases hlink : current_block.previous_hash ≠ previous_block.hash
        · simp [chainValidLoop, hcb, hpb, hlink]
        · simp [chainValidLoop, hcb, hpb, hlink, blockCalculateHashAttr]

/-- C8 (amended): the genesis block created when a chain initializes over
empty storage has index 0, `previous_hash` equal to the one-character string
`"0"` (not 64 zero characters), nonce 0 and a hash equal to its plain
recomputation; it is stored at height 0 without any proof-of-work
requirement — under a crypto service whose hash is the constant `"x"` the
created genesis hash satisfies no leading-zero target at all. -/
theorem C8_genesis_sentinel_and_no_target (c : Crypto) (ser : Serializer)
    (t : ℚ) (s : Storage) :
    (create_genesis_block c ser t s).1.index = 0 ∧
    (create_genesis_block c ser t s).1.previous_hash = "0" ∧
    (create_genesis_block c ser t s).1.nonce = 0 ∧
    (create_genesis_block c ser t s).1.hash =
      (create_genesis_block c ser t s).1.calcHash c ser ∧
    get_block_by_height (create_genesis_block c ser t s).2 0 =
      some (create_genesis_block c ser t s).1 ∧
    pyStartsWith
      (create_genesis_block xCrypto sampleSer 0 emptyStorage).1.hash "0"
      = false := by
  refine ⟨rfl, rfl, rfl, rfl, ?_, by decide⟩
  show get_block_by_height (storeBlock _ s) 0 = _
  simp [get_block_by_height, storeBlock, getBlockByHash, upsert,
    List.lookup_cons, Block.create, Block.calcHash, create_genesis_block]

/-- C8 counterexample to the claim as stated: the genesis block that
`_create_genesis_block` builds has `previous_hash = "0"`, a single zero
character — not a string of 64 `"0"` characters. (The separate, unused
`GenesisBlock` class would use 64 zeros, but chain initialization never
instantiates it.) -/
theorem C8_genesis_sentinel_counterexample :
    (create_genesis_block sampleCrypto sampleSer 0 emptyStorage).1.previous_hash
      = "0" ∧
    (create_genesis_block sampleCrypto sampleSer 0
      emptyStorage).1.previous_hash ≠ String.mk (List.replicate 64 '0') := by
  constructor
  · rfl
  · decide

/-- C5: for a pool of capacity 3, after admitting four distinct valid
transactions with fees 5, 1, 9, 3 in that order, the pool holds exactly the
fee-9, fee-5 and fee-3 transactions in fee-descending order (the fee-1 entry
was evicted), and `get_transactions_for_block(2)` removes and returns the
fee-9 then fee-5 transactions, leaving only the fee-3 transaction. -/
theorem C5_pool_eviction_and_selection :
    c5Pool.pending_transactions =
      [sampleTx "t9" 9, sampleTx "t5" 5, sampleTx "t3" 3] ∧
    (c5Pool.get_transactions_for_block 2).1 =
      [sampleTx "t9" 9, sampleTx "t5" 5] ∧
    (c5Pool.get_transactions_for_block 2).2.pending_transactions =
      [sampleTx "t3" 3] ∧
    (c5Pool.get_transactions_for_block 2).2.transaction_map.map Prod.fst =
      ["t3"] := by
  constructor
  · decide
  constructor
  · decide
  constructor
  · decide
  · decide

/-- C10 (amended): starting from an empty pool of any capacity `m ≥ 1`, after
every sequence of pool operations the key set of `transaction_map` is a
permutation of the identifiers of `pending_transactions`, and the pool never
holds more than `max_size` entries. (For `m = 0` the size bound fails, see
the counterexample: eviction of the lowest-fee entry is a no-op on an empty
pool and the new transaction is appended regardless.) -/
theorem C10_pool_map_sync_and_capacity (c : Crypto) (numStr : ℚ → String)
    (m : Nat) (ops : List PoolOp) (hm : 1 ≤ m) :
    ((applyPoolOps c numStr (TransactionPool.init m) ops).transaction_map.map
        Prod.fst).Perm
      ((applyPoolOps c numStr (TransactionPool.init m)
        ops).pending_transactions.map (·.transaction_id)) ∧
    (applyPoolOps c numStr (TransactionPool.init m)
        ops).pending_transactions.length ≤
      (applyPoolOps c numStr (TransactionPool.init m) ops).max_size := by
  obtain ⟨h1, h2, h3, h4⟩ :=
    applyPoolOps_inv c numStr ops (TransactionPool.init m) (PoolInv_init m hm)
  refine ⟨?_, h2⟩
  have hkp := h3.map Prod.fst
  rwa [pairsOf_map_fst] at hkp

/-- Witness for C10: the invariant evaluated after a concrete operation
sequence on a capacity-3 pool. -/
theorem C10_pool_map_sync_and_capacity_witness :
    1 ≤ 3 ∧
    (((applyPoolOps sampleCrypto sampleNumStr (TransactionPool.init 3)
        samplePoolOps).transaction_map.map Prod.fst).Perm
      ((applyPoolOps sampleCrypto sampleNumStr (TransactionPool.init 3)
        samplePoolOps).pending_transactions.map (·.transaction_id)) ∧
    (applyPoolOps sampleCrypto sampleNumStr (TransactionPool.init 3)
        samplePoolOps).pending_transactions.length ≤
      (applyPoolOps sampleCrypto sampleNumStr (TransactionPool.init 3)
        samplePoolOps).max_size) :=
  ⟨by decide, C10_pool_map_sync_and_capacity sampleCrypto sampleNumStr 3
    samplePoolOps (by decide)⟩

/-- C10 counterexample to the claim as stated: a pool constructed with
`max_size = 0` accepts a valid transaction (the eviction step is a no-op on
an empty pool) and afterwards holds 1 > 0 entries. -/
theorem C10_pool_map_sync_and_capacity_counterexample :
    ¬ ((applyPoolOps sampleCrypto sampleNumStr (TransactionPool.init 0)
        [PoolOp.add (sampleTx "tA" 2)]).pending_transactions.length ≤
      (applyPoolOps sampleCrypto sampleNumStr (TransactionPool.init 0)
        [PoolOp.add (sampleTx "tA" 2)]).max_size) := by
  decide

/-! ## Distributed storage (`src/storage/distributed_storage.py`)

The md5-based key hash (`int(md5(key), 16)`) enters as an abstract integer
`keyHashInt`; peer liveness probes and write acknowledgements enter as
boolean-valued functions of the peer endpoint. -/

/-- The replication configuration and peer-health registry of
`DistributedStorage`. -/
structure DistributedStorage where
  peer_nodes : List String
  replication_factor : Nat
  consistency_level : String
  node_health : List (String × Bool)
deriving Repr

/-- `DistributedStorage.__init__`: clamp the replication factor to
`peers + 1` and mark every peer healthy. -/
def DistributedStorage.init (peer_nodes : List String)
    (replication_factor : Nat) (consistency_level : String) :
    DistributedStorage :=
  { peer_nodes := peer_nodes
    replication_factor := min replication_factor (peer_nodes.length + 1)
    consistency_level := consistency_level
    node_health := peer_nodes.map (fun n => (n, true)) }

/-- `DistributedStorage._select_nodes_for_key`: among the currently-healthy
peers, pick `replication_factor - 1` nodes by `(hash + i) mod available`
(the local node is always the remaining replica). -/
def select_nodes_for_key (d : DistributedStorage) (keyHashInt : Nat) :
    List String :=
  let available_nodes := d.peer_nodes.filter
    (fun n => (d.node_health.lookup n).getD false)
  if available_nodes = [] then []
  else
    (List.range (d.replication_factor - 1)).map
      (fun i => available_nodes.getD ((keyHashInt + i) % available_nodes.length) "")

/-- `DistributedStorage._replicate_to_peers` for a put: per selected node,
a failed liveness probe records `False`, otherwise the ack of the POST is
recorded; `results` is a dict keyed by node. -/
def replicate_to_peers (d : DistributedStorage) (keyHashInt : Nat)
    (probe ack : String → Bool) : List (String × Bool) :=
  (select_nodes_for_key d keyHashInt).foldl
    (fun results node =>
      upsert node (if ¬ probe node then false else ack node) results)
    []

/-- `DistributedStorage.put`: local write first; `eventual` reports the local
result and replicates asynchronously; otherwise replicate synchronously and
require all acks (`strong`), a majority of the contacted nodes (`quorum`,
`len(results) // 2 + 1`), or one ack. `local_success` is the result of the
wrapped local engine's `put`. -/
def DistributedStorage.put (d : DistributedStorage) (keyHashInt : Nat)
    (local_success : Bool) (probe ack : String → Bool) : Bool :=
  if d.consistency_level = "eventual" then local_success
  else
    let replication_results := replicate_to_peers d keyHashInt probe ack
    let successful_replications :=
      (replication_results.filter (fun p => p.2)).length
    let required_success :=
      if d.consistency_level = "strong" then replication_results.length
      else if d.consistency_level = "quorum" then
        replication_results.length / 2 + 1
      else 1
    local_success && decide (required_success ≤ successful_replications)

/-- C4: under consistency level `quorum` with 2 configured healthy peers and
replication factor 2, exactly one peer is selected for each key, the
required-ack threshold is `⌊selected/2⌋ + 1 = 1` peer ack (so success means
2 total acks: the local write plus one peer), and `put` reports success iff
the local write succeeds and the selected peer passes its liveness probe and
acknowledges; any fewer peer acks and the put is reported failed. -/
theorem C4_quorum_put_two_peers (keyHashInt : Nat) (local_success : Bool)
    (probe ack : String → Bool) :
    DistributedStorage.put (DistributedStorage.init ["p1", "p2"] 2 "quorum")
        keyHashInt local_success probe ack =
      (local_success &&
        (probe ((["p1", "p2"] : List String).getD (keyHashInt % 2) "") &&
          ack ((["p1", "p2"] : List String).getD (keyHashInt % 2) ""))) ∧
    (select_nodes_for_key (DistributedStorage.init ["p1", "p2"] 2 "quorum")
      keyHashInt).length = 1 ∧
    (replicate_to_peers (DistributedStorage.init ["p1", "p2"] 2 "quorum")
      keyHashInt probe ack).length / 2 + 1 = 1 := by
  have hcl : (DistributedStorage.init ["p1", "p2"] 2 "quorum").consistency_level
      = "quorum" := rfl
  have hsel : select_nodes_for_key
      (DistributedStorage.init ["p1", "p2"] 2 "quorum") keyHashInt =
      [(["p1", "p2"] : List String).getD ((keyHashInt + 0) % 2) ""] := by
    simp only [select_nodes_for_key, DistributedStorage.init]
    rfl
  rcases Nat.mod_two_eq_zero_or_one keyHashInt with hm | hm
  · have hsel1 : select_nodes_for_key
        (DistributedStorage.init ["p1", "p2"] 2 "quorum") keyHashInt =
        ["p1"] := by
      rw [hsel, Nat.add_zero, hm]
      rfl
    have hgetD : (["p1", "p2"] : List String).getD (keyHashInt % 2) "" =
        "p1" := by
      rw [hm]
      rfl
    rw [hgetD]
    cases hp : probe "p1" <;> cases ha : ack "p1" <;>
      cases local_success <;>
      simp [DistributedStorage.put, replicate_to_peers, hcl, hsel1, upsert,
        hp, ha]
  · have hsel1 : select_nodes_for_key
        (DistributedStorage.init ["p1", "p2"] 2 "quorum") keyHashInt =
        ["p2"] := by
      rw [hsel, Nat.add_zero, hm]
      rfl
    have hgetD : (["p1", "p2"] : List String).getD (keyHashInt % 2) "" =
        "p2" := by
      rw [hm]
      rfl
    rw [hgetD]
    cases hp : probe "p2" <;> cases ha : ack "p2" <;>
      cases local_success <;>
      simp [DistributedStorage.put, replicate_to_peers, hcl, hsel1, upsert,
        hp, ha]

/-- C3: with persistence succeeding, `mine_pending_transactions` is a no-op
returning `None` on an empty pool; otherwise the mined block's transactions
are exactly the pending snapshot plus one reward transaction
`(sender="", receiver=miner, amount=mining_reward)`, its hash starts with
`difficulty` zero hex characters, and the pending list is cleared. -/
theorem C3_mine_pending_transactions (c : Crypto) (ser : Serializer)
    (rT : ℚ) (rN : String) (bT sT : ℚ) (st : ChainState) (addr : String)
    (hex : MiningSucceeds c ser st.difficulty
      (new_block_of c ser bT st addr rT rN))
    (hpend : st.pending_transactions ≠ []) :
    (∀ (st' : ChainState)
      (hex' : MiningSucceeds c ser st'.difficulty
        (new_block_of c ser bT st' addr rT rN)),
      st'.pending_transactions = [] →
        mine_pending_transactions c ser rT rN bT sT true st' addr hex' =
          (none, st')) ∧
    (mine_pending_transactions c ser rT rN bT sT true st addr hex).1 =
      some (mine_block c ser st.difficulty
        (new_block_of c ser bT st addr rT rN) hex) ∧
    (mine_block c ser st.difficulty
      (new_block_of c ser bT st addr rT rN) hex).transactions =
      st.pending_transactions ++ [reward_transaction_of c ser st addr rT rN] ∧
    (reward_transaction_of c ser st addr rT rN).sender = "" ∧
    (reward_transaction_of c ser st addr rT rN).receiver = addr ∧
    (reward_transaction_of c ser st addr rT rN).amount = st.mining_reward ∧
    (reward_transaction_of c ser st addr rT rN).fee = 0 ∧
    pyStartsWith (mine_block c ser st.difficulty
      (new_block_of c ser bT st addr rT rN) hex).hash
      (zeroTarget st.difficulty) = true ∧
    (mine_pending_transactions c ser rT rN bT sT true st addr
      hex).2.pending_transactions = [] := by
  refine ⟨?_, ?_, rfl, rfl, rfl, rfl, rfl, ?_, ?_⟩
  · intro st' hex' hp
    unfold mine_pending_transactions
    rw [if_pos hp]
  · unfold mine_pending_transactions
    rw [if_neg hpend]
    rfl
  · exact Nat.find_spec hex
  · unfold mine_pending_transactions
    rw [if_neg hpend]
    rfl

/-- Witness for C3: mining a concrete one-transaction pool at difficulty 1
under a constant-hash crypto service. -/
theorem C3_mine_pending_transactions_witness :
    st9.pending_transactions ≠ [] ∧
    ((∀ (st' : ChainState)
      (hex' : MiningSucceeds crypto0abc sampleSer st'.difficulty
        (new_block_of crypto0abc sampleSer 0 st' "miner" 0 "")),
      st'.pending_transactions = [] →
        mine_pending_transactions crypto0abc sampleSer 0 "" 0 0 true st'
          "miner" hex' = (none, st')) ∧
    (mine_pending_transactions crypto0abc sampleSer 0 "" 0 0 true st9 "miner"
        mining_succeeds_st9).1 = some mined9 ∧
    mined9.transactions =
      st9.pending_transactions ++
        [reward_transaction_of crypto0abc sampleSer st9 "miner" 0 ""] ∧
    (reward_transaction_of crypto0abc sampleSer st9 "miner" 0 "").sender
      = "" ∧
    (reward_transaction_of crypto0abc sampleSer st9 "miner" 0 "").receiver
      = "miner" ∧
    (reward_transaction_of crypto0abc sampleSer st9 "miner" 0 "").amount
      = st9.mining_reward ∧
    (reward_transaction_of crypto0abc sampleSer st9 "miner" 0 "").fee = 0 ∧
    pyStartsWith mined9.hash (zeroTarget st9.difficulty) = true ∧
    (mine_pending_transactions crypto0abc sampleSer 0 "" 0 0 true st9 "miner"
        mining_succeeds_st9).2.pending_transactions = []) :=
  ⟨by decide,
    C3_mine_pending_transactions crypto0abc sampleSer 0 "" 0 0 st9 "miner"
      mining_succeeds_st9 (by decide)⟩

/-- C7: if `store_block` fails, `mine_pending_transactions` returns `None`
and chain state does not advance — the pending list and balances are
untouched. -/
theorem C7_store_failure_preserves_state (c : Crypto) (ser : Serializer)
    (rT : ℚ) (rN : String) (bT sT : ℚ) (st : ChainState) (addr : String)
    (hex : MiningSucceeds c ser st.difficulty
      (new_block_of c ser bT st addr rT rN)) :
    (mine_pending_transactions c ser rT rN bT sT false st addr hex).1 =
      none ∧
    (mine_pending_transactions c ser rT rN bT sT false st addr
      hex).2.pending_transactions = st.pending_transactions ∧
    (mine_pending_transactions c ser rT rN bT sT false st addr
      hex).2.balances = st.balances := by
  unfold mine_pending_transactions
  by_cases hp : st.pending_transactions = []
  · rw [if_pos hp]
    exact ⟨rfl, rfl, rfl⟩
  · rw [if_neg hp]
    exact ⟨rfl, rfl, rfl⟩

/-- Witness for C7 at the concrete mining scenario. -/
theorem C7_store_failure_preserves_state_witness :
    (mine_pending_transactions crypto0abc sampleSer 0 "" 0 0 false st9
      "miner" mining_succeeds_st9).1 = none ∧
    (mine_pending_transactions crypto0abc sampleSer 0 "" 0 0 false st9
      "miner" mining_succeeds_st9).2.pending_transactions =
      st9.pending_transactions ∧
    (mine_pending_transactions crypto0abc sampleSer 0 "" 0 0 false st9
      "miner" mining_succeeds_st9).2.balances = st9.balances :=
  C7_store_failure_preserves_state crypto0abc sampleSer 0 "" 0 0 st9 "miner"
    mining_succeeds_st9

/-- C9: every block produced by `mine_pending_transactions` carries the
`Block.__init__` default `difficulty = 4` regardless of the chain's
configured difficulty (the nonce search uses the chain difficulty but never
updates the block's field), and concretely, mining at chain difficulty 1
under the constant-`"0abc"` hash yields a block that fails
`Block.is_valid`'s proof-of-work check against its own difficulty field. -/
theorem C9_mined_difficulty_field_default (c : Crypto) (ser : Serializer)
    (rT : ℚ) (rN : String) (bT sT : ℚ) (storeOk : Bool) (st : ChainState)
    (addr : String)
    (hex : MiningSucceeds c ser st.difficulty
      (new_block_of c ser bT st addr rT rN)) :
    (∀ B, (mine_pending_transactions c ser rT rN bT sT storeOk st addr
      hex).1 = some B → B.difficulty = 4) ∧
    st9.difficulty = 1 ∧
    Block.is_valid crypto0abc sampleSer mined9 = false := by
  refine ⟨?_, rfl, ?_⟩
  · intro B hB
    unfold mine_pending_transactions at hB
    by_cases hp : st.pending_transactions = []
    · rw [if_pos hp] at hB
      cases hB
    · rw [if_neg hp] at hB
      cases storeOk with
      | false => cases hB
      | true =>
        have hBval : B = mine_block c ser st.difficulty
            (new_block_of c ser bT st addr rT rN) hex := by
          have : some (mine_block c ser st.difficulty
              (new_block_of c ser bT st addr rT rN) hex) = some B := hB
          injection this with h
          exact h.symm
        rw [hBval]
        rfl
  · have hhash : mined9.hash = "0abc" := rfl
    have hcalc : Block.calcHash crypto0abc sampleSer mined9 = "0abc" := rfl
    have hdiff : mined9.difficulty = 4 := rfl
    unfold Block.is_valid
    rw [if_neg (show ¬ (mined9.hash ≠ Block.calcHash crypto0abc sampleSer
      mined9) by rw [hhash, hcalc]; simp)]
    rw [if_pos (show ¬ (pyStartsWith mined9.hash
      (zeroTarget mined9.difficulty)) = true by
        rw [hhash, hdiff]; decide)]

/-- Witness for C9 at the concrete mining scenario. -/
theorem C9_mined_difficulty_field_default_witness :
    (∀ B, (mine_pending_transactions crypto0abc sampleSer 0 "" 0 0 true st9
      "miner" mining_succeeds_st9).1 = some B → B.difficulty = 4) ∧
    st9.difficulty = 1 ∧
    Block.is_valid crypto0abc sampleSer mined9 = false :=
  C9_mined_difficulty_field_default crypto0abc sampleSer 0 "" 0 0 true st9
    "miner" mining_succeeds_st9

end BCSec
